import Mathlib

/-!
# Verification of the Thorup-style coreset sampling core (fgc)

Shallow embedding of the core sampling suite of the repository
(`thorup.h`-style header: `ScopedSyntheticVertex`, `sample_from_graph`
(Algorithm D), `thorup_d` (Algorithm E), `get_costs`, `thorup_sample_mincost`).

Modelling conventions:
* A weighted graph is a vertex count `nv` (vertices are `0 .. nv-1`, matching
  `boost::adjacency_list` with `vecS` vertex storage) together with an
  (undirected) edge list.  `boost::add_vertex` appends a fresh index,
  `boost::add_edge` appends to the edge list, `boost::clear_vertex` removes
  every incident edge, `boost::remove_vertex` of the last vertex decrements
  the count.
* Edge weights are modelled by `ℚ` (the C++ uses `double`; every claim under
  verification is about exact comparisons and sums, and the spec treats the
  weights as non-negative reals).
* The single-source shortest-path routine (`boost::dijkstra_shortest_paths`)
  is, per the spec, an external collaborator "assumed correct and supplied as
  a capability".  It is modelled as an oracle parameter
  `dj : Graph → Nat → (Nat → ℚ) × (Nat → Nat)` yielding the distance map and
  the predecessor map for a given graph and source.  Claims whose truth
  depends on shortest-path correctness take a decidable
  shortest-path-tree hypothesis (`IsSPTree`) about the oracle's output.
* The `wy::WyRand` random generator is modelled as an abstract stream
  `f : Nat → Nat` (the sequence of draws determined by the seed) together
  with a position counter that each `rng()` call advances by one.  This is
  exactly the "single mutable stream threaded explicitly" of the spec.
-/

namespace FGC

/-- A weighted graph: vertices `0 .. nv-1` plus an edge list (undirected;
each stored tuple `(u, v, w)` connects `u` and `v` at cost `w`). -/
structure Graph where
  nv : Nat
  edges : List (Nat × Nat × ℚ)
deriving DecidableEq

/-- Well-formedness: every stored edge endpoint is a real vertex. -/
def Graph.WF (g : Graph) : Prop := ∀ e ∈ g.edges, e.1 < g.nv ∧ e.2.1 < g.nv

instance (g : Graph) : Decidable g.WF := by unfold Graph.WF; infer_instance

/-- All edge weights are non-negative. -/
def Graph.NonNeg (g : Graph) : Prop := ∀ e ∈ g.edges, 0 ≤ e.2.2

instance (g : Graph) : Decidable g.NonNeg := by unfold Graph.NonNeg; infer_instance

/-- `boost::add_edge(u, v, w, g)` (appends to the adjacency structure). -/
def addEdge (g : Graph) (u v : Nat) (w : ℚ) : Graph :=
  ⟨g.nv, g.edges ++ [(u, v, w)]⟩

/-- `boost::clear_vertex(v, g)`: remove every edge incident to `v`. -/
def clearVertex (g : Graph) (v : Nat) : Graph :=
  ⟨g.nv, g.edges.filter (fun e => !(e.1 == v || e.2.1 == v))⟩

/-- `~ScopedSyntheticVertex`: `boost::clear_vertex` on the synthetic vertex
followed by `boost::remove_vertex` (the synthetic vertex is the last-added
index, so its removal just decrements the vertex count). -/
def releaseSynth (g : Graph) (v : Nat) : Graph :=
  ⟨g.nv - 1, (clearVertex g v).edges⟩

/-- Remove position `i` from the pool the way `thorup_d` does:
`std::swap(r, R.back()); R.pop_back();`. -/
def swapPop (R : List Nat) (i : Nat) : List Nat :=
  (R.set i (R.getD (R.length - 1) 0)).dropLast

/-- `flat_hash_map pid2ind`: index of the *last* occurrence of `v` in the
container (later insertions `pid2ind[index[*it++]] = i` overwrite earlier
ones); `none` when absent (`pid2ind.at` throws). -/
def lastIdxOf : List Nat → Nat → Option Nat
  | [], _ => none
  | a :: as, v =>
    match lastIdxOf as v with
    | some j => some (j + 1)
    | none => if a = v then some 0 else none

/-- The upward predecessor walk of `get_costs`:
`parent = p[i]; newparent = p[parent]; while (newparent != synth) {parent =
newparent; newparent = p[parent];}` — starting from `parent`, follow `p`
until the current node's predecessor is the synthetic vertex, and return that
node.  The C++ loop has no bound; fuel suffices for every terminating run
(`none` models a walk that never meets the synthetic vertex). -/
def walkUp (p : Nat → Nat) (synth : Nat) : Nat → Nat → Option Nat
  | 0, _ => none
  | fuel + 1, parent => if p parent = synth then some parent else walkUp p synth fuel (p parent)

/-- Resolution of one vertex's serving facility in `get_costs`:
walk up from `p[i]`, look the stop up in `pid2ind`, and on a miss fall back
to `pid2ind.at(i)` (whose failure — `std::out_of_range` — is `none`). -/
def assignOf (S : List Nat) (p : Nat → Nat) (synth fuel i : Nat) : Option Nat :=
  match walkUp p synth fuel (p i) with
  | none => none
  | some parent =>
    match lastIdxOf S parent with
    | some j => some j
    | none => lastIdxOf S i

/-- Sequence a list of fallible computations, failing if any entry fails
(a failing `pid2ind.at` aborts the whole `get_costs` call). -/
def optMapAll : List Nat → (Nat → Option Nat) → Option (List Nat)
  | [], _ => some []
  | i :: is, f =>
    match f i, optMapAll is f with
    | some a, some as => some (a :: as)
    | _, _ => none

/-- The assignment loop of `get_costs` over all real vertices `0 .. n-1`. -/
def assignAll (S : List Nat) (p : Nat → Nat) (synth n : Nat) : Option (List Nat) :=
  optMapAll (List.range n) (fun i => assignOf S p synth (n + 2) i)

/-- The graph on which `get_costs` runs Dijkstra: the input graph plus the
synthetic vertex `g.nv`, wired by `add_edge(synthetic_vertex, vtx, 0.)` to
every member of the container. -/
def costGraph (g : Graph) (S : List Nat) : Graph :=
  ⟨g.nv + 1, g.edges ++ S.map (fun v => (g.nv, v, (0 : ℚ)))⟩

/-- `get_costs(x, container)`: multi-source Dijkstra through the synthetic
vertex, then predecessor-walk assignment resolution.  Returns the cost
vector restricted to real vertices and the assignment vector (`none` models
the thrown `std::out_of_range` of `pid2ind.at`), together with the graph as
left behind by `~ScopedSyntheticVertex` on that exit path. -/
def get_costs (dj : Graph → Nat → (Nat → ℚ) × (Nat → Nat)) (g : Graph) (S : List Nat) :
    Option (List ℚ × List Nat) × Graph :=
  let synth := g.nv
  let g1 := costGraph g S
  let d := (dj g1 synth).1
  let p := (dj g1 synth).2
  let gfin := releaseSynth g1 synth
  match assignAll S p synth g.nv with
  | none => (none, gfin)
  | some asgn => (some ((List.range g.nv).map d, asgn), gfin)

/-! ## `sample_from_graph` (Algorithm D, fine-grained, with replacement) -/

/-- Loop state of `sample_from_graph`: candidate pool `R`, sample container
`F`, current graph (synthetic vertex present), stream position, and the trace
of `(graph at the Dijkstra call, pool after the round)` per executed round
(observability instrumentation; it does not feed back into the run). -/
structure SState where
  R : List Nat
  F : List Nat
  g : Graph
  pos : Nat
  trace : List (Graph × List Nat)
deriving DecidableEq

/-- One round's draws: `samples_per_round` picks `R[rng() % R.size()]`
(with replacement — `R` does not change during the draw loop, so the
`i < e && R.size()` guard admits exactly `samples_per_round` iterations
whenever the pool is non-empty). -/
def sfgDraws (f : Nat → Nat) (R : List Nat) (pos spr : Nat) : List Nat :=
  if R.isEmpty then [] else (List.range spr).map (fun j => R.getD (f (pos + j) % R.length) 0)

/-- The graph handed to Dijkstra in a `sample_from_graph` round: the running
graph plus `add_edge(synthetic_vertex, vertex, 0.)` for every member of `F`. -/
def sfgRoundGraph (f : Nat → Nat) (synth spr : Nat) (st : SState) : Graph :=
  ⟨st.g.nv, st.g.edges ++ (st.F ++ sfgDraws f st.R st.pos spr).map (fun v => (synth, v, (0 : ℚ)))⟩

/-- The pivot `el = R[rng() % R.size()]` drawn after the round's samples. -/
def sfgPivot (f : Nat → Nat) (spr : Nat) (st : SState) : Nat :=
  st.R.getD (f (st.pos + (sfgDraws f st.R st.pos spr).length) % st.R.length) 0

/-- One round of `sample_from_graph`: draw, wire `F` to the synthetic vertex,
run Dijkstra, clear the synthetic vertex's edges, prune the pool by the
pivot's distance. -/
def sfgRound (dj : Graph → Nat → (Nat → ℚ) × (Nat → Nat)) (f : Nat → Nat)
    (synth spr : Nat) (st : SState) : SState :=
  let draws := sfgDraws f st.R st.pos spr
  let F' := st.F ++ draws
  let g1 := sfgRoundGraph f synth spr st
  let d := (dj g1 synth).1
  let g2 := clearVertex g1 synth
  let pos1 := st.pos + draws.length
  let pivot := sfgPivot f spr st
  let R' := st.R.filter (fun x => !(decide (d x ≤ d pivot)))
  ⟨R', F', g2, pos1 + 1, st.trace ++ [(g1, R')]⟩

/-- The round loop `for (iter = 0; iter < iterations && R.size() > 0; ++iter)`. -/
def sfgLoop (dj : Graph → Nat → (Nat → ℚ) × (Nat → Nat)) (f : Nat → Nat)
    (synth spr : Nat) : Nat → SState → SState
  | 0, st => st
  | n + 1, st => if st.R.isEmpty then st else sfgLoop dj f synth spr n (sfgRound dj f synth spr st)

/-- Result of `sample_from_graph`: the returned container, the graph after
`~ScopedSyntheticVertex`, and the per-round trace. -/
structure SRes where
  F : List Nat
  graph : Graph
  trace : List (Graph × List Nat)
deriving DecidableEq

/-- `sample_from_graph(x, samples_per_round, iterations, container, seed)`.
The caller-supplied `container` is *not* cleared; draws are appended to it.
`f` abstracts the `wy::WyRand(seed)` stream. -/
def sample_from_graph (dj : Graph → Nat → (Nat → ℚ) × (Nat → Nat)) (f : Nat → Nat)
    (g : Graph) (spr iters : Nat) (container : List Nat) : SRes :=
  let synth := g.nv
  let st0 : SState := ⟨List.range g.nv, container, ⟨g.nv + 1, g.edges⟩, 0, []⟩
  let st := sfgLoop dj f synth spr iters st0
  ⟨st.F, releaseSynth st.g synth, st.trace⟩

/-! ## `thorup_d` (Algorithm E, coarse-grained, cumulative forest) -/

/-- Loop state of `thorup_d`; `dist` is the `distances` array (last written
by Dijkstra; all-zero stands for the initial, never-read allocation). -/
structure DState where
  R : List Nat
  F : List Nat
  g : Graph
  dist : Nat → ℚ
  pos : Nat
  trace : List (Graph × List Nat)

/-- One draw of `thorup_d`'s sampling phase: `auto &r = R[rng() % R.size()];
F.push_back(r); boost::add_edge(r, synthetic_vertex, 0., x); std::swap(r,
R.back()); R.pop_back();` — the drawn vertex moves from `R` into `F`
(without replacement). -/
def dPick (f : Nat → Nat) (synth : Nat) (st : DState) : DState :=
  let i := f st.pos % st.R.length
  let r := st.R.getD i 0
  ⟨swapPop st.R i, st.F ++ [r], addEdge st.g r synth 0, st.dist, st.pos + 1, st.trace⟩

/-- `nperround` draws. -/
def dSample (f : Nat → Nat) (synth : Nat) : Nat → DState → DState
  | 0, st => st
  | j + 1, st => dSample f synth j (dPick f synth st)

/-- The `else` branch: move the entire remaining pool into `F`, wiring each
vertex to the synthetic vertex (no random draws are consumed). -/
def dMoveAll (synth : Nat) (st : DState) : DState :=
  ⟨[], st.F ++ st.R, ⟨st.g.nv, st.g.edges ++ st.R.map (fun r => (r, synth, (0 : ℚ)))⟩,
    st.dist, st.pos, st.trace⟩

/-- The sampling phase of one `thorup_d` round (`if (R.size() > nperround)`). -/
def dRoundSampled (f : Nat → Nat) (synth nper : Nat) (st : DState) : DState :=
  if nper < st.R.length then dSample f synth nper st else dMoveAll synth st

/-- The pivot `randel = R[rng() % R.size()]` of a `thorup_d` round (drawn
only when the pool is still non-empty after sampling). -/
def dRoundPivot (f : Nat → Nat) (synth nper : Nat) (st : DState) : Nat :=
  let st1 := dRoundSampled f synth nper st
  st1.R.getD (f st1.pos % st1.R.length) 0

/-- The distance map computed by the round's Dijkstra call (edges from
previous rounds are still in place — nothing clears them). -/
def dRoundDist (dj : Graph → Nat → (Nat → ℚ) × (Nat → Nat)) (f : Nat → Nat)
    (synth nper : Nat) (st : DState) : Nat → ℚ :=
  (dj (dRoundSampled f synth nper st).g synth).1

/-- One round of `thorup_d`: sample (or move the rest), run Dijkstra over the
accumulated forest, and — unless the pool emptied (`if (R.empty()) break;`) —
prune the pool by the pivot's distance. -/
def dRound (dj : Graph → Nat → (Nat → ℚ) × (Nat → Nat)) (f : Nat → Nat)
    (synth nper : Nat) (st : DState) : DState :=
  let st1 := dRoundSampled f synth nper st
  let d := dRoundDist dj f synth nper st
  if st1.R.isEmpty then
    ⟨st1.R, st1.F, st1.g, d, st1.pos, st1.trace ++ [(st1.g, st1.R)]⟩
  else
    let pivot := dRoundPivot f synth nper st
    let R' := st1.R.filter (fun x => !(decide (d x ≤ d pivot)))
    ⟨R', st1.F, st1.g, d, st1.pos + 1, st1.trace ++ [(st1.g, R')]⟩

/-- The round loop `for (i = 0; R.size() && i < maxnumrounds; ++i)`. -/
def dLoop (dj : Graph → Nat → (Nat → ℚ) × (Nat → Nat)) (f : Nat → Nat)
    (synth nper : Nat) : Nat → DState → DState
  | 0, st => st
  | n + 1, st => if st.R.isEmpty then st else dLoop dj f synth nper n (dRound dj f synth nper st)

/-- Result of `thorup_d`: the sample `F`, its cost, the stream position after
the run, the graph after `~ScopedSyntheticVertex`, the per-round trace, and
the final distance map. -/
structure DRes where
  F : List Nat
  cost : ℚ
  pos : Nat
  graph : Graph
  trace : List (Graph × List Nat)
  dist : Nat → ℚ

/-- `thorup_d(x, rng, nperround, maxnumrounds)`.  The final cost sums the
last distance vector over indices `0 .. nv-2` of the augmented graph, i.e.
over all non-synthetic vertices. -/
def thorup_d (dj : Graph → Nat → (Nat → ℚ) × (Nat → Nat)) (f : Nat → Nat)
    (g : Graph) (pos nper mnr : Nat) : DRes :=
  let synth := g.nv
  let st0 : DState := ⟨List.range g.nv, [], ⟨g.nv + 1, g.edges⟩, fun _ => 0, pos, []⟩
  let st := dLoop dj f synth nper mnr st0
  ⟨st.F, ((List.range g.nv).map st.dist).sum, st.pos, releaseSynth st.g synth, st.trace, st.dist⟩

/-! ## `thorup_sample_mincost` (BestOfTrials) -/

/-- The trial loop of `thorup_sample_mincost` after the first trial:
`auto next = thorup_d(x, rng, ...); if (next.second < bestsol.second)
std::swap(next, bestsol);` — threading the single stream position and the
graph through all trials.  The C++ computes `samples_per_round` and the round
bound from `k` and `log2(n)` in floating point; the claims are independent of
those values, so the model takes them (`spr`, `mnr`) as parameters. -/
def tsmLoop (dj : Graph → Nat → (Nat → ℚ) × (Nat → Nat)) (f : Nat → Nat)
    (spr mnr : Nat) : Nat → (List Nat × ℚ) → Nat → Graph → ((List Nat × ℚ) × Nat × Graph)
  | 0, best, pos, g => (best, pos, g)
  | n + 1, best, pos, g =>
    let r := thorup_d dj f g pos spr mnr
    tsmLoop dj f spr mnr n (if r.cost < best.2 then (r.F, r.cost) else best) r.pos r.graph

/-- `thorup_sample_mincost(x, k, seed, num_iter)`: one initial trial plus
`num_iter - 1` more on the shared stream, then `get_costs` once on the
winner.  The code returns `std::make_pair(bestsol.first, assignments)` —
the cost vector produced by `get_costs` is discarded. -/
def thorup_sample_mincost (dj : Graph → Nat → (Nat → ℚ) × (Nat → Nat)) (f : Nat → Nat)
    (g : Graph) (spr mnr numTrials : Nat) : Option (List Nat × List Nat) :=
  let r0 := thorup_d dj f g 0 spr mnr
  let res := tsmLoop dj f spr mnr (numTrials - 1) (r0.F, r0.cost) r0.pos r0.graph
  match (get_costs dj res.2.2 res.1.1).1 with
  | none => none
  | some (_, asgn) => some (res.1.1, asgn)

/-- The list of `(SampleSet, CostValue)` pairs of `n` successive `thorup_d`
trials on one shared, continuously advancing stream (trial `i+1` starts at
the position and graph left by trial `i`). -/
def trialList (dj : Graph → Nat → (Nat → ℚ) × (Nat → Nat)) (f : Nat → Nat)
    (spr mnr : Nat) : Nat → Nat → Graph → (List (List Nat × ℚ) × Nat × Graph)
  | 0, pos, g => ([], pos, g)
  | n + 1, pos, g =>
    let r := thorup_d dj f g pos spr mnr
    let rest := trialList dj f spr mnr n r.pos r.graph
    ((r.F, r.cost) :: rest.1, rest.2)

/-- Fold retaining the pair with the strictly smallest cost (first wins ties),
exactly the comparison `next.second < bestsol.second` of the trial loop. -/
def bestOf : (List Nat × ℚ) → List (List Nat × ℚ) → (List Nat × ℚ)
  | b, [] => b
  | b, t :: ts => bestOf (if t.2 < b.2 then t else b) ts

/-- Modelled from the spec: the BestOfTrials output shape stated in §4.5 /
§6 — the triple `(SampleSet, CostVector, AssignmentVector)`, with the cost
vector taken from the CostAssigner run on the winning sample.  (The code's
`thorup_sample_mincost` returns only a pair; this definition exists to be
compared against it.) -/
def bestOfTrials_spec (dj : Graph → Nat → (Nat → ℚ) × (Nat → Nat)) (f : Nat → Nat)
    (g : Graph) (spr mnr numTrials : Nat) : Option (List Nat × List ℚ × List Nat) :=
  let r0 := thorup_d dj f g 0 spr mnr
  let res := tsmLoop dj f spr mnr (numTrials - 1) (r0.F, r0.cost) r0.pos r0.graph
  match (get_costs dj res.2.2 res.1.1).1 with
  | none => none
  | some (c, asgn) => some (res.1.1, c, asgn)

/-! ## Shortest-path theory

The spec assumes the external shortest-path capability correct; `IsSPTree`
is the (decidable) contract its output must satisfy, and `IsPath` /
`IsShortestFrom` give the mathematical meaning of shortest-path distance
used to state claim C2. -/

/-- The stored edge list read as an undirected adjacency relation. -/
def hasEdge (g : Graph) (u v : Nat) (w : ℚ) : Prop :=
  (u, v, w) ∈ g.edges ∨ (v, u, w) ∈ g.edges

instance (g : Graph) (u v : Nat) (w : ℚ) : Decidable (hasEdge g u v w) := by
  unfold hasEdge; infer_instance

/-- A walk from `u` to `v` of total cost `c` (with non-negative weights the
minimum over walks coincides with the minimum over simple paths, so this is
the right notion for "true shortest-path distance"). -/
inductive IsPath (g : Graph) : Nat → Nat → ℚ → Prop
  | nil (v : Nat) : IsPath g v v 0
  | cons {u v t : Nat} {w c : ℚ} : hasEdge g u v w → IsPath g v t c → IsPath g u t (w + c)

/-- `d` is the shortest-path distance from `u` to `v` in `g`. -/
def IsShortestFrom (g : Graph) (u v : Nat) (d : ℚ) : Prop :=
  IsPath g u v d ∧ ∀ c, IsPath g u v c → d ≤ c

/-- The predecessor chain from `v` reaches `s` within `k` steps. -/
def reachesIn (p : Nat → Nat) (s : Nat) : Nat → Nat → Bool
  | 0, v => v == s
  | k + 1, v => v == s || reachesIn p s k (p v)

/-- Correctness contract for the external Dijkstra capability on graph `g`
from source `s`: `dist`/`pred` form a shortest-path tree.  The conjuncts:
source fixed point; every non-source vertex hangs off its predecessor by an
actual edge whose weight accounts exactly for the distance difference; every
edge is relaxed (both directions — the graphs here are undirected); every
vertex's predecessor chain reaches the source; and a vertex adjacent to the
source keeps the source as predecessor unless some strictly cheaper path
beat the direct edge (Dijkstra relaxes the source's edges first and
re-relaxes only on strict improvement). -/
def IsSPTree (g : Graph) (s : Nat) (dist : Nat → ℚ) (pred : Nat → Nat) : Prop :=
  dist s = 0 ∧ pred s = s ∧
  (∀ v < g.nv, v ≠ s → hasEdge g (pred v) v (dist v - dist (pred v))) ∧
  (∀ e ∈ g.edges, dist e.2.1 ≤ dist e.1 + e.2.2 ∧ dist e.1 ≤ dist e.2.1 + e.2.2) ∧
  (∀ v < g.nv, reachesIn pred s g.nv v = true) ∧
  (∀ e ∈ g.edges, (e.1 = s → pred e.2.1 ≠ s → dist e.2.1 < e.2.2) ∧
    (e.2.1 = s → pred e.1 ≠ s → dist e.1 < e.2.2))

instance (g : Graph) (s : Nat) (dist : Nat → ℚ) (pred : Nat → Nat) :
    Decidable (IsSPTree g s dist pred) := by
  unfold IsSPTree; infer_instance

/-! ## Helper lemmas -/

theorem swapPop_perm (R : List Nat) (i : Nat) (h : i < R.length) :
    (swapPop R i).Perm (R.eraseIdx i) := by
  unfold swapPop
  rw [List.set_eq_take_cons_drop _ h, List.eraseIdx_eq_take_drop_succ]
  rcases Nat.lt_or_ge i (R.length - 1) with hi | hi
  · have hd : R.drop (i + 1) ≠ [] := by
      intro hnil
      have := congrArg List.length hnil
      simp at this
      omega
    rw [List.dropLast_append_cons, List.dropLast_cons_of_ne_nil hd]
    refine List.Perm.append_left _ ?_
    have hgl : (R.drop (i + 1)).getLast hd = R.getD (R.length - 1) 0 := by
      rw [List.getD_eq_getElem R 0 (by omega), List.getLast_eq_getElem, List.getElem_drop]
      congr 1
      simp only [List.length_drop]
      omega
    have hsplit : (R.drop (i + 1)).dropLast ++ [R.getD (R.length - 1) 0] = R.drop (i + 1) := by
      rw [← hgl]
      exact List.dropLast_append_getLast hd
    conv_rhs => rw [← hsplit]
    exact (List.perm_append_singleton _ _).symm
  · have hdrop : R.drop (i + 1) = [] := List.drop_eq_nil_of_le (by omega)
    rw [hdrop]
    simp only [List.dropLast_concat, List.append_nil]
    exact List.Perm.refl _

theorem swapPop_length (R : List Nat) (i : Nat) (h : i < R.length) :
    (swapPop R i).length = R.length - 1 := by
  have h1 := (swapPop_perm R i h).length_eq
  have h2 := List.length_eraseIdx_add_one h
  omega

theorem swapPop_subset (R : List Nat) (i : Nat) (h : i < R.length) :
    ∀ x ∈ swapPop R i, x ∈ R := by
  intro x hx
  have := (swapPop_perm R i h).mem_iff.mp hx
  rw [List.eraseIdx_eq_take_drop_succ] at this
  rcases List.mem_append.mp this with h1 | h1
  · exact List.mem_of_mem_take h1
  · exact List.mem_of_mem_drop h1

theorem cons_decomp_at (R : List Nat) (i : Nat) (h : i < R.length) :
    R = R.take i ++ R[i] :: R.drop (i + 1) := by
  conv_lhs => rw [← List.take_append_drop i R]
  rw [List.drop_eq_getElem_cons h]

theorem swapPop_nodup (R : List Nat) (i : Nat) (h : i < R.length) (hn : R.Nodup) :
    (swapPop R i).Nodup := by
  refine (swapPop_perm R i h).symm.nodup ?_
  rw [List.eraseIdx_eq_take_drop_succ]
  have hR := hn
  rw [cons_decomp_at R i h, List.nodup_append] at hR
  obtain ⟨h1, h2, h3⟩ := hR
  rw [List.nodup_append]
  refine ⟨h1, (List.nodup_cons.mp h2).2, ?_⟩
  intro a ha hb
  exact h3 ha (List.mem_cons_of_mem _ hb)

theorem swapPop_pick_not_mem (R : List Nat) (i : Nat) (h : i < R.length) (hn : R.Nodup) :
    R.getD i 0 ∉ swapPop R i := by
  rw [List.getD_eq_getElem R 0 h]
  intro hmem
  have hmem' := (swapPop_perm R i h).mem_iff.mp hmem
  rw [List.eraseIdx_eq_take_drop_succ] at hmem'
  have hR := hn
  rw [cons_decomp_at R i h, List.nodup_append] at hR
  obtain ⟨_, h2, h3⟩ := hR
  rcases List.mem_append.mp hmem' with h1 | h1
  · exact h3 h1 (List.mem_cons_self _ _)
  · exact (List.nodup_cons.mp h2).1 h1

theorem getD_mem (R : List Nat) (i : Nat) (h : i < R.length) : R.getD i 0 ∈ R := by
  rw [List.getD_eq_getElem R 0 h]; exact List.getElem_mem h

theorem length_filter_lt {p : Nat → Bool} {l : List Nat} {a : Nat}
    (ha : a ∈ l) (hp : p a = false) : (l.filter p).length < l.length := by
  induction l with
  | nil => cases ha
  | cons b bs ih =>
    rcases List.mem_cons.mp ha with rfl | hmem
    · rw [List.filter_cons_of_neg (by simp [hp])]
      have := List.length_filter_le p bs
      simp only [List.length_cons]
      omega
    · by_cases hb : p b
      · rw [List.filter_cons_of_pos hb]
        simpa using ih hmem
      · rw [List.filter_cons_of_neg (by simpa using hb)]
        have := ih hmem
        simp only [List.length_cons]
        omega

theorem lastIdxOf_getElem? {l : List Nat} {v j : Nat} (h : lastIdxOf l v = some j) :
    l[j]? = some v := by
  induction l generalizing j with
  | nil => simp [lastIdxOf] at h
  | cons a as ih =>
    rw [lastIdxOf] at h
    rcases hrec : lastIdxOf as v with _ | j'
    · rw [hrec] at h
      by_cases hav : a = v
      · simp [hav] at h
        subst hav
        simp [← h]
      · simp [hav] at h
    · rw [hrec] at h
      simp at h
      subst h
      simpa using ih hrec

theorem lastIdxOf_of_mem {l : List Nat} {v : Nat} (h : v ∈ l) :
    ∃ j, lastIdxOf l v = some j := by
  induction l with
  | nil => cases h
  | cons a as ih =>
    rcases hrec : lastIdxOf as v with _ | j'
    · rcases List.mem_cons.mp h with rfl | hmem
      · exact ⟨0, by simp [lastIdxOf, hrec]⟩
      · obtain ⟨j, hj⟩ := ih hmem
        rw [hj] at hrec
        cases hrec
    · exact ⟨j' + 1, by simp [lastIdxOf, hrec]⟩

theorem lastIdxOf_eq_none {l : List Nat} {v : Nat} (h : v ∉ l) :
    lastIdxOf l v = none := by
  induction l with
  | nil => rfl
  | cons a as ih =>
    have hv : a ≠ v := fun hav => h (by simp [hav])
    rw [lastIdxOf, ih (fun hmem => h (List.mem_cons_of_mem _ hmem))]
    simp [hv]

theorem optMapAll_eq_none {l : List Nat} {f : Nat → Option Nat} {i : Nat}
    (hi : i ∈ l) (h : f i = none) : optMapAll l f = none := by
  induction l with
  | nil => cases hi
  | cons a as ih =>
    rcases List.mem_cons.mp hi with rfl | hmem
    · rw [optMapAll, h]
    · rw [optMapAll, ih hmem]
      rcases f a with _ | _ <;> rfl

theorem optMapAll_some {l : List Nat} {f : Nat → Option Nat} {out : List Nat}
    (h : optMapAll l f = some out) :
    out.length = l.length ∧ ∀ (k x : Nat), l[k]? = some x → out[k]? = f x := by
  induction l generalizing out with
  | nil =>
    rw [optMapAll] at h
    cases h
    exact ⟨rfl, by intro k x hx; simp at hx⟩
  | cons a as ih =>
    rw [optMapAll] at h
    rcases ha : f a with _ | b <;> rw [ha] at h
    · cases h
    · rcases hrec : optMapAll as f with _ | out' <;> rw [hrec] at h
      · cases h
      · cases h
        obtain ⟨hlen, hget⟩ := ih hrec
        refine ⟨by simpa using hlen, ?_⟩
        intro k x hx
        match k with
        | 0 =>
          simp only [List.getElem?_cons_zero, Option.some.injEq] at hx
          subst hx
          simp [ha]
        | k + 1 =>
          simp only [List.getElem?_cons_succ] at hx ⊢
          exact hget k x hx

theorem walkUp_mono {p : Nat → Nat} {s : Nat} {fuel fuel' x y : Nat}
    (h : walkUp p s fuel x = some y) (hle : fuel ≤ fuel') :
    walkUp p s fuel' x = some y := by
  induction fuel generalizing fuel' x with
  | zero => simp [walkUp] at h
  | succ n ih =>
    rw [walkUp] at h
    obtain ⟨m, rfl⟩ : ∃ m, fuel' = m + 1 := ⟨fuel' - 1, by omega⟩
    rw [walkUp]
    by_cases hp : p x = s
    · rw [if_pos hp] at h ⊢; exact h
    · rw [if_neg hp] at h ⊢
      exact ih h (by omega)

theorem dLoop_inv (dj : Graph → Nat → (Nat → ℚ) × (Nat → Nat)) (f : Nat → Nat)
    (synth nper : Nat) (P : DState → Prop)
    (hstep : ∀ st, P st → P (dRound dj f synth nper st)) :
    ∀ n st, P st → P (dLoop dj f synth nper n st) := by
  intro n
  induction n with
  | zero => intro st h; exact h
  | succ m ih =>
    intro st h
    rw [dLoop]
    by_cases hR : st.R.isEmpty
    · rw [if_pos hR]; exact h
    · rw [if_neg hR]; exact ih _ (hstep st h)

theorem sfgLoop_inv (dj : Graph → Nat → (Nat → ℚ) × (Nat → Nat)) (f : Nat → Nat)
    (synth spr : Nat) (P : SState → Prop)
    (hstep : ∀ st, P st → P (sfgRound dj f synth spr st)) :
    ∀ n st, P st → P (sfgLoop dj f synth spr n st) := by
  intro n
  induction n with
  | zero => intro st h; exact h
  | succ m ih =>
    intro st h
    rw [sfgLoop]
    by_cases hR : st.R.isEmpty
    · rw [if_pos hR]; exact h
    · rw [if_neg hR]; exact ih _ (hstep st h)

theorem dSample_inv (f : Nat → Nat) (synth : Nat) (P : DState → Prop)
    (hstep : ∀ st, P st → P (dPick f synth st)) :
    ∀ j st, P st → P (dSample f synth j st) := by
  intro j
  induction j with
  | zero => intro st h; exact h
  | succ m ih => intro st h; exact ih _ (hstep st h)

/-! ## Graph restoration (`ScopedSyntheticVertex` frame discipline) -/

/-- Shape of the graph while a synthetic-vertex scope over `g0` is open:
one extra vertex, and every edge beyond `g0`'s own touches the synthetic
vertex. -/
def ScopeInv (g0 : Graph) (synth : Nat) (g : Graph) : Prop :=
  g.nv = g0.nv + 1 ∧ ∃ A, g.edges = g0.edges ++ A ∧ ∀ e ∈ A, e.1 = synth ∨ e.2.1 = synth

theorem wf_edge_keep {g0 : Graph} (hwf : g0.WF) {e : Nat × Nat × ℚ} (he : e ∈ g0.edges) :
    (!(e.1 == g0.nv || e.2.1 == g0.nv)) = true := by
  obtain ⟨h1, h2⟩ := hwf e he
  simp only [Bool.not_eq_true', Bool.or_eq_false_iff, beq_eq_false_iff_ne]
  omega

theorem touch_edge_drop {synth : Nat} {e : Nat × Nat × ℚ}
    (he : e.1 = synth ∨ e.2.1 = synth) :
    (!(e.1 == synth || e.2.1 == synth)) = false := by
  rcases he with h | h <;> simp [h]

theorem clearVertex_scope {g0 : Graph} (hwf : g0.WF) {A : List (Nat × Nat × ℚ)}
    (hA : ∀ e ∈ A, e.1 = g0.nv ∨ e.2.1 = g0.nv) {n : Nat} :
    clearVertex ⟨n, g0.edges ++ A⟩ g0.nv = ⟨n, g0.edges⟩ := by
  unfold clearVertex
  simp only [List.filter_append]
  rw [List.filter_eq_self.mpr (fun e he => wf_edge_keep hwf he),
    List.filter_eq_nil_iff.mpr (fun e he => by simp [touch_edge_drop (hA e he)]),
    List.append_nil]

theorem releaseSynth_scope {g0 g : Graph} (hwf : g0.WF) (hinv : ScopeInv g0 g0.nv g) :
    releaseSynth g g0.nv = g0 := by
  obtain ⟨hnv, A, hA, htouch⟩ := hinv
  unfold releaseSynth
  have hg : g = ⟨g0.nv + 1, g0.edges ++ A⟩ := by
    cases g
    simp at hnv hA
    simp [hnv, hA]
  rw [hg]
  have := clearVertex_scope hwf htouch (n := g0.nv + 1)
  rw [this]
  cases g0
  simp

theorem dPick_scope (f : Nat → Nat) (g0 : Graph) (st : DState)
    (h : ScopeInv g0 g0.nv st.g) : ScopeInv g0 g0.nv (dPick f g0.nv st).g := by
  obtain ⟨hnv, A, hA, htouch⟩ := h
  refine ⟨hnv, A ++ [(st.R.getD (f st.pos % st.R.length) 0, g0.nv, 0)], ?_, ?_⟩
  · show (addEdge st.g _ g0.nv 0).edges = _
    unfold addEdge
    simp [hA]
  · intro e he
    rcases List.mem_append.mp he with h1 | h1
    · exact htouch e h1
    · simp at h1
      subst h1
      right
      rfl

theorem dRoundSampled_scope (f : Nat → Nat) (g0 : Graph) (nper : Nat) (st : DState)
    (h : ScopeInv g0 g0.nv st.g) : ScopeInv g0 g0.nv (dRoundSampled f g0.nv nper st).g := by
  unfold dRoundSampled
  by_cases hc : nper < st.R.length
  · rw [if_pos hc]
    exact dSample_inv f g0.nv (fun s => ScopeInv g0 g0.nv s.g)
      (fun s hs => dPick_scope f g0 s hs) nper st h
  · rw [if_neg hc]
    obtain ⟨hnv, A, hA, htouch⟩ := h
    refine ⟨hnv, A ++ st.R.map (fun r => (r, g0.nv, 0)), ?_, ?_⟩
    · show st.g.edges ++ _ = _
      simp [hA]
    · intro e he
      rcases List.mem_append.mp he with h1 | h1
      · exact htouch e h1
      · obtain ⟨r, _, rfl⟩ := List.mem_map.mp h1
        right
        rfl

theorem dRound_scope (dj : Graph → Nat → (Nat → ℚ) × (Nat → Nat)) (f : Nat → Nat)
    (g0 : Graph) (nper : Nat) (st : DState)
    (h : ScopeInv g0 g0.nv st.g) : ScopeInv g0 g0.nv (dRound dj f g0.nv nper st).g := by
  unfold dRound
  by_cases hc : (dRoundSampled f g0.nv nper st).R.isEmpty <;>
    simp only [hc, if_true, if_false, Bool.false_eq_true] <;>
    exact dRoundSampled_scope f g0 nper st h

theorem thorup_d_graph (dj : Graph → Nat → (Nat → ℚ) × (Nat → Nat)) (f : Nat → Nat)
    (g : Graph) (pos nper mnr : Nat) (hwf : g.WF) :
    (thorup_d dj f g pos nper mnr).graph = g := by
  unfold thorup_d
  refine releaseSynth_scope hwf ?_
  exact dLoop_inv dj f g.nv nper (fun s => ScopeInv g g.nv s.g)
    (fun s hs => dRound_scope dj f g nper s hs) mnr _ ⟨rfl, [], by simp, by simp⟩

theorem sfgRound_scope (dj : Graph → Nat → (Nat → ℚ) × (Nat → Nat)) (f : Nat → Nat)
    (g0 : Graph) (spr : Nat) (hwf : g0.WF) (st : SState)
    (h : ScopeInv g0 g0.nv st.g) : ScopeInv g0 g0.nv (sfgRound dj f g0.nv spr st).g := by
  obtain ⟨hnv, A, hA, htouch⟩ := h
  have hg : st.g = ⟨g0.nv + 1, g0.edges ++ A⟩ := by
    cases hst : st.g
    rw [hst] at hnv hA
    simp at hnv hA
    simp [hnv, hA]
  show ScopeInv g0 g0.nv (clearVertex (sfgRoundGraph f g0.nv spr st) g0.nv)
  have hrg : sfgRoundGraph f g0.nv spr st
      = ⟨g0.nv + 1, g0.edges ++ (A ++ (st.F ++ sfgDraws f st.R st.pos spr).map
          (fun v => (g0.nv, v, (0 : ℚ))))⟩ := by
    unfold sfgRoundGraph
    rw [hg]
    simp
  rw [hrg]
  have hA' : ∀ e ∈ A ++ (st.F ++ sfgDraws f st.R st.pos spr).map
      (fun v => (g0.nv, v, (0 : ℚ))), e.1 = g0.nv ∨ e.2.1 = g0.nv := by
    intro e he
    rcases List.mem_append.mp he with h1 | h1
    · exact htouch e h1
    · obtain ⟨v, _, rfl⟩ := List.mem_map.mp h1
      left
      rfl
  rw [clearVertex_scope hwf hA']
  exact ⟨rfl, [], by simp, by simp⟩

theorem sample_from_graph_graph (dj : Graph → Nat → (Nat → ℚ) × (Nat → Nat)) (f : Nat → Nat)
    (g : Graph) (spr iters : Nat) (cont : List Nat) (hwf : g.WF) :
    (sample_from_graph dj f g spr iters cont).graph = g := by
  unfold sample_from_graph
  refine releaseSynth_scope hwf ?_
  exact sfgLoop_inv dj f g.nv spr (fun s => ScopeInv g g.nv s.g)
    (fun s hs => sfgRound_scope dj f g spr hwf s hs) iters _ ⟨rfl, [], by simp, by simp⟩

theorem get_costs_graph (dj : Graph → Nat → (Nat → ℚ) × (Nat → Nat)) (g : Graph)
    (S : List Nat) (hwf : g.WF) : (get_costs dj g S).2 = g := by
  have hrel : releaseSynth (costGraph g S) g.nv = g := by
    refine releaseSynth_scope hwf ⟨rfl, S.map (fun v => (g.nv, v, (0 : ℚ))), rfl, ?_⟩
    intro e he
    obtain ⟨v, _, rfl⟩ := List.mem_map.mp he
    left
    rfl
  unfold get_costs
  rcases h : assignAll S (dj (costGraph g S) g.nv).2 g.nv g.nv with _ | asgn <;>
    simp only [h] <;> exact hrel

/-! ## Concrete fixtures for witnesses and counterexamples -/

/-- One isolated vertex. -/
def gOne : Graph := ⟨1, []⟩

/-- Two vertices joined by a unit edge (a connected graph). -/
def gTwo : Graph := ⟨2, [(0, 1, 1)]⟩

/-- The all-zero random stream. -/
def fZero : Nat → Nat := fun _ => 0

/-- An SSSP oracle answering distance `0` and predecessor `1` everywhere
(adequate for `gOne`, whose synthetic vertex is `1`). -/
def djOne : Graph → Nat → (Nat → ℚ) × (Nat → Nat) := fun _ _ => (fun _ => 0, fun _ => 1)

/-- An SSSP oracle answering distance `-1` everywhere: the shape of output a
malformed (negative-weight) graph can produce. -/
def djNegOne : Graph → Nat → (Nat → ℚ) × (Nat → Nat) := fun _ _ => (fun _ => -1, fun _ => 2)

/-- An SSSP oracle whose predecessor map sends every vertex straight to `2`
(the synthetic vertex of `gTwo`), so the upward walk of `get_costs` stops at
the synthetic vertex itself and finds no facility. -/
def djBad : Graph → Nat → (Nat → ℚ) × (Nat → Nat) := fun _ _ => (fun _ => 0, fun _ => 2)

/-! ## Claim C4 (RoundSampler draw count) -/

/-- C4, counterexample: the claim says a round with non-empty pool draws
`min(s, |pool|)` vertices.  On the connected two-vertex graph `gTwo` (pool
size `2`) with `s = 3` and one round, `sample_from_graph` appends `3` draws
to the initially empty container, but `min(3, |pool|) = min 3 2 = 2`. -/
theorem sample_from_graph_draw_count_cx :
    (sample_from_graph djOne fZero gTwo 3 1 []).F.length = 3 ∧ min 3 gTwo.nv ≠ 3 := by
  decide

/-- C4 (amended): in every `sample_from_graph` round whose candidate pool is
non-empty, exactly `samples_per_round` vertices are drawn — `s`, not
`min(s, |pool|)`; the pool does not shrink during the draw loop, so the
`i < e && R.size()` guard never cuts the count — each drawn uniformly at
random (`R[rng() % R.size()]`) with replacement from the pool, and every
draw is appended to the SampleSet. -/
theorem sfgRound_draws_spr (dj : Graph → Nat → (Nat → ℚ) × (Nat → Nat)) (f : Nat → Nat)
    (synth spr : Nat) (st : SState) (h : st.R ≠ []) :
    (sfgRound dj f synth spr st).F = st.F ++ sfgDraws f st.R st.pos spr ∧
    (sfgDraws f st.R st.pos spr).length = spr ∧
    ∀ x ∈ sfgDraws f st.R st.pos spr, x ∈ st.R := by
  have hne : st.R.isEmpty = false := by
    rcases hR : st.R with _ | _
    · exact absurd hR h
    · rfl
  refine ⟨rfl, ?_, ?_⟩
  · rw [sfgDraws, hne]
    simp
  · intro x hx
    rw [sfgDraws, hne] at hx
    simp only [Bool.false_eq_true, if_false, List.mem_map] at hx
    obtain ⟨j, _, rfl⟩ := hx
    refine getD_mem _ _ (Nat.mod_lt _ ?_)
    cases hR : st.R
    · exact absurd hR h
    · simp [hR]

/-- C4, witness for the amended claim at a concrete round state. -/
theorem sfgRound_draws_spr_witness :
    (([0, 1] : List Nat) ≠ []) ∧
    ((sfgRound djOne fZero 2 3 ⟨[0, 1], [], ⟨3, [(0, 1, 1)]⟩, 0, []⟩).F
        = [] ++ sfgDraws fZero [0, 1] 0 3 ∧
      (sfgDraws fZero [0, 1] 0 3).length = 3 ∧
      ∀ x ∈ sfgDraws fZero [0, 1] 0 3, x ∈ ([0, 1] : List Nat)) :=
  ⟨by decide, sfgRound_draws_spr djOne fZero 2 3 ⟨[0, 1], [], ⟨3, [(0, 1, 1)]⟩, 0, []⟩ (by decide)⟩

/-! ## Claim C5 (numeric invariant violation handling) -/

/-- C5, counterexample: a negative entry in the distance vector (here the
oracle's output for a malformed graph) does not abort `thorup_d`; the run
returns normally with the corrupted `CostValue = -2` (the claim demands an
abort instead of returning such a value). -/
theorem thorup_d_negative_cost_cx :
    (thorup_d djNegOne fZero gTwo 0 1 1).dist 0 < 0 ∧
    (thorup_d djNegOne fZero gTwo 0 1 1).cost = -2 := by
  refine ⟨by decide, ?_⟩
  norm_num [thorup_d, dLoop, dRound, dRoundSampled, dRoundDist, dRoundPivot, dSample, dPick,
    swapPop, addEdge, gTwo, djNegOne, fZero, List.range_succ]

/-- C5 (amended): neither sampler nor CostAssigner performs numeric
validation: `thorup_d` always returns `CostValue` equal to the raw sum of
the final distance vector (negative or non-finite entries included), and
`get_costs` returns the distance vector exactly as produced by the
shortest-path routine, unchecked. -/
theorem no_numeric_validation :
    (∀ (dj : Graph → Nat → (Nat → ℚ) × (Nat → Nat)) (f : Nat → Nat)
        (g : Graph) (pos nper mnr : Nat),
      (thorup_d dj f g pos nper mnr).cost
        = ((List.range g.nv).map (thorup_d dj f g pos nper mnr).dist).sum) ∧
    (∀ (dj : Graph → Nat → (Nat → ℚ) × (Nat → Nat)) (g : Graph)
        (S : List Nat) (c : List ℚ) (a : List Nat),
      (get_costs dj g S).1 = some (c, a) →
        c = (List.range g.nv).map (dj (costGraph g S) g.nv).1) := by
  constructor
  · intro dj f g pos nper mnr
    rfl
  · intro dj g S c a h
    unfold get_costs at h
    rcases ha : assignAll S (dj (costGraph g S) g.nv).2 g.nv g.nv with _ | asgn <;>
      simp only [ha] at h
    · cases h
    · exact (Prod.mk.injEq _ _ _ _ ▸ (Option.some.injEq _ _ ▸ h)).1.symm

/-- C5, witness for the amended claim. -/
theorem no_numeric_validation_witness :
    ((thorup_d djNegOne fZero gTwo 0 1 1).cost
      = ((List.range gTwo.nv).map (thorup_d djNegOne fZero gTwo 0 1 1).dist).sum) ∧
    ([(0 : ℚ)] = (List.range gOne.nv).map (djOne (costGraph gOne [0]) gOne.nv).1) :=
  ⟨no_numeric_validation.1 djNegOne fZero gTwo 0 1 1,
   no_numeric_validation.2 djOne gOne [0] [0] [0] (by decide)⟩

/-! ## Claim C6 (assignment failure) -/

/-- C6: if the upward predecessor walk (with its `pid2ind.at(i)` fallback)
fails to resolve a SampleSet member for some real vertex, `get_costs` aborts
— it produces no cost/assignment vectors at all, so no default or unrelated
facility index is ever recorded for that vertex. -/
theorem get_costs_assignment_failure (dj : Graph → Nat → (Nat → ℚ) × (Nat → Nat))
    (g : Graph) (S : List Nat) (v : Nat) (hv : v < g.nv)
    (hfail : assignOf S (dj (costGraph g S) g.nv).2 g.nv (g.nv + 2) v = none) :
    (get_costs dj g S).1 = none := by
  unfold get_costs
  have hnone : assignAll S (dj (costGraph g S) g.nv).2 g.nv g.nv = none := by
    unfold assignAll
    exact optMapAll_eq_none (List.mem_range.mpr hv) hfail
  simp only [hnone]

/-- C6, witness: on `gTwo` with sample `{0}` and a malformed predecessor map
(everything points at the synthetic vertex), vertex `1` cannot be resolved
and `get_costs` fails. -/
theorem get_costs_assignment_failure_witness :
    1 < gTwo.nv ∧
    assignOf [0] (djBad (costGraph gTwo [0]) gTwo.nv).2 gTwo.nv (gTwo.nv + 2) 1 = none ∧
    (get_costs djBad gTwo [0]).1 = none :=
  ⟨by decide, by decide,
    get_costs_assignment_failure djBad gTwo [0] 1 (by decide) (by decide)⟩

/-! ## Claim C9 (SyntheticVertexScope frame property) -/

/-- C9: every operation that opens a `ScopedSyntheticVertex` scope
(`thorup_d`, `sample_from_graph`, `get_costs`) hands back the graph exactly
as it was before the call — the same vertex count and the same edge list —
on every exit path (for `get_costs` the restored graph is returned on the
failure path as well: the second component is computed identically in the
`none` branch). -/
theorem synthetic_scope_frame (dj : Graph → Nat → (Nat → ℚ) × (Nat → Nat)) (f : Nat → Nat)
    (g : Graph) (pos nper mnr spr iters : Nat) (cont S : List Nat) (hwf : g.WF) :
    (thorup_d dj f g pos nper mnr).graph = g ∧
    (sample_from_graph dj f g spr iters cont).graph = g ∧
    (get_costs dj g S).2 = g :=
  ⟨thorup_d_graph dj f g pos nper mnr hwf,
   sample_from_graph_graph dj f g spr iters cont hwf,
   get_costs_graph dj g S hwf⟩

/-- C9, witness at a concrete well-formed graph (including a failing
`get_costs` run, exercising the error exit path). -/
theorem synthetic_scope_frame_witness :
    gTwo.WF ∧
    ((thorup_d djBad fZero gTwo 0 1 2).graph = gTwo ∧
      (sample_from_graph djBad fZero gTwo 2 2 [0]).graph = gTwo ∧
      (get_costs djBad gTwo [0]).2 = gTwo) :=
  ⟨by decide, synthetic_scope_frame djBad fZero gTwo 0 1 2 2 2 [0] [0] (by decide)⟩

/-! ## Claim C10 (container is appended to, not cleared) -/

/-- C10: `sample_from_graph` never clears the caller-supplied container: the
pre-existing handles stay at the front of the returned SampleSet, and in
every executed round — the first included — each of them is wired to the
synthetic vertex `g.nv` by a zero-weight edge in the graph handed to
Dijkstra. -/
theorem sample_from_graph_appends (dj : Graph → Nat → (Nat → ℚ) × (Nat → Nat))
    (f : Nat → Nat) (g : Graph) (spr iters : Nat) (F0 : List Nat) (hne : F0 ≠ []) :
    (∃ rest, (sample_from_graph dj f g spr iters F0).F = F0 ++ rest) ∧
    (∀ entry ∈ (sample_from_graph dj f g spr iters F0).trace, ∀ v ∈ F0,
      (g.nv, v, (0 : ℚ)) ∈ entry.1.edges) := by
  have key := sfgLoop_inv dj f g.nv spr
    (fun st => (∃ A, st.F = F0 ++ A) ∧
      (∀ entry ∈ st.trace, ∀ v ∈ F0, (g.nv, v, (0 : ℚ)) ∈ entry.1.edges))
    (by
      rintro st ⟨⟨A, hA⟩, htr⟩
      constructor
      · exact ⟨A ++ sfgDraws f st.R st.pos spr, by simp [sfgRound, hA]⟩
      · intro entry hentry v hv
        rcases List.mem_append.mp hentry with hold | hnew
        · exact htr entry hold v hv
        · simp only [List.mem_singleton] at hnew
          subst hnew
          show (g.nv, v, (0 : ℚ)) ∈ (sfgRoundGraph f g.nv spr st).edges
          unfold sfgRoundGraph
          refine List.mem_append.mpr (Or.inr ?_)
          refine List.mem_map.mpr ⟨v, ?_, rfl⟩
          refine List.mem_append.mpr (Or.inl ?_)
          rw [hA]
          exact List.mem_append.mpr (Or.inl hv))
    iters ⟨List.range g.nv, F0, ⟨g.nv + 1, g.edges⟩, 0, []⟩ ⟨⟨[], by simp⟩, by simp⟩
  exact key

/-- C10, witness: a run starting from the non-empty container `[1]`. -/
theorem sample_from_graph_appends_witness :
    (([1] : List Nat) ≠ []) ∧
    ((∃ rest, (sample_from_graph djOne fZero gTwo 1 1 [1]).F = [1] ++ rest) ∧
      (∀ entry ∈ (sample_from_graph djOne fZero gTwo 1 1 [1]).trace, ∀ v ∈ ([1] : List Nat),
        (gTwo.nv, v, (0 : ℚ)) ∈ entry.1.edges)) :=
  ⟨by decide, sample_from_graph_appends djOne fZero gTwo 1 1 [1] (by decide)⟩

/-! ## Claim C7 (determinism and stream independence) -/

/-- C7: with the graph, the random stream (seed) and all parameters fixed,
`thorup_sample_mincost` is a pure function — two runs give identical
SampleSet and AssignmentVector — and the stream position and graph threaded
through the trial loop do not depend on the best-so-far accumulator: the
draws consumed by trial `i` are the same whether or not earlier trials won. -/
theorem thorup_sample_mincost_deterministic :
    (∀ (dj : Graph → Nat → (Nat → ℚ) × (Nat → Nat)) (f : Nat → Nat) (g : Graph)
        (spr mnr n : Nat) (r1 r2 : Option (List Nat × List Nat)),
      r1 = thorup_sample_mincost dj f g spr mnr n →
      r2 = thorup_sample_mincost dj f g spr mnr n → r1 = r2) ∧
    (∀ (dj : Graph → Nat → (Nat → ℚ) × (Nat → Nat)) (f : Nat → Nat)
        (spr mnr n : Nat) (b1 b2 : List Nat × ℚ) (pos : Nat) (g : Graph),
      (tsmLoop dj f spr mnr n b1 pos g).2 = (tsmLoop dj f spr mnr n b2 pos g).2) := by
  constructor
  · intro dj f g spr mnr n r1 r2 h1 h2
    rw [h1, h2]
  · intro dj f spr mnr n
    induction n with
    | zero => intro b1 b2 pos g; rfl
    | succ m ih =>
      intro b1 b2 pos g
      rw [tsmLoop, tsmLoop]
      exact ih _ _ _ _

/-- C7, witness: identical runs agree, and two trial loops differing only in
the best-so-far accumulator consume the stream identically. -/
theorem thorup_sample_mincost_deterministic_witness :
    thorup_sample_mincost djOne fZero gOne 1 1 2 = thorup_sample_mincost djOne fZero gOne 1 1 2 ∧
    (tsmLoop djOne fZero 1 1 2 ([0], 5) 0 gOne).2 = (tsmLoop djOne fZero 1 1 2 ([9], 7) 0 gOne).2 :=
  ⟨thorup_sample_mincost_deterministic.1 djOne fZero gOne 1 1 2 _ _ rfl rfl,
   thorup_sample_mincost_deterministic.2 djOne fZero 1 1 2 ([0], 5) ([9], 7) 0 gOne⟩

/-! ## Claim C8 (candidate pool monotonicity) -/

theorem swapPop_length_le (R : List Nat) (i : Nat) : (swapPop R i).length = R.length - 1 := by
  simp [swapPop]

theorem dPick_pool (f : Nat → Nat) (synth : Nat) (st : DState) :
    (dPick f synth st).R.length ≤ st.R.length := by
  show (swapPop st.R _).length ≤ st.R.length
  rw [swapPop_length_le]
  omega

theorem dSample_pool (f : Nat → Nat) (synth : Nat) :
    ∀ j st, (dSample f synth j st).R.length ≤ st.R.length := by
  intro j
  induction j with
  | zero => intro st; exact Nat.le_refl _
  | succ m ih =>
    intro st
    exact Nat.le_trans (ih (dPick f synth st)) (dPick_pool f synth st)

theorem dRoundSampled_pool (f : Nat → Nat) (synth nper : Nat) (st : DState) :
    (dRoundSampled f synth nper st).R.length ≤ st.R.length := by
  unfold dRoundSampled
  by_cases hc : nper < st.R.length
  · rw [if_pos hc]; exact dSample_pool f synth nper st
  · rw [if_neg hc]; exact Nat.zero_le _

theorem dSample_trace (f : Nat → Nat) (synth : Nat) :
    ∀ j st, (dSample f synth j st).trace = st.trace := by
  intro j
  induction j with
  | zero => intro st; rfl
  | succ m ih => intro st; exact ih (dPick f synth st)

theorem dRoundSampled_trace (f : Nat → Nat) (synth nper : Nat) (st : DState) :
    (dRoundSampled f synth nper st).trace = st.trace := by
  unfold dRoundSampled
  by_cases hc : nper < st.R.length
  · rw [if_pos hc]; exact dSample_trace f synth nper st
  · rw [if_neg hc]; rfl

theorem dRound_trace (dj : Graph → Nat → (Nat → ℚ) × (Nat → Nat)) (f : Nat → Nat)
    (synth nper : Nat) (st : DState) :
    (dRound dj f synth nper st).trace
      = st.trace ++ [((dRoundSampled f synth nper st).g, (dRound dj f synth nper st).R)] := by
  unfold dRound
  by_cases hc : (dRoundSampled f synth nper st).R.isEmpty <;>
    simp [hc, dRoundSampled_trace f synth nper st]

theorem sfgRound_pool (dj : Graph → Nat → (Nat → ℚ) × (Nat → Nat)) (f : Nat → Nat)
    (synth spr : Nat) (st : SState) (h : st.R ≠ []) :
    (sfgRound dj f synth spr st).R.length ≤ st.R.length ∧
    (0 < (dj (sfgRoundGraph f synth spr st) synth).1 (sfgPivot f spr st) →
      (sfgRound dj f synth spr st).R.length < st.R.length) := by
  have hlen : 0 < st.R.length := by
    cases hR : st.R
    · exact absurd hR h
    · simp [hR]
  have hpmem : sfgPivot f spr st ∈ st.R := getD_mem _ _ (Nat.mod_lt _ hlen)
  have hstrict : (sfgRound dj f synth spr st).R.length < st.R.length := by
    show (st.R.filter _).length < st.R.length
    exact length_filter_lt hpmem (by simp)
  exact ⟨Nat.le_of_lt hstrict, fun _ => hstrict⟩

theorem dRound_pool (dj : Graph → Nat → (Nat → ℚ) × (Nat → Nat)) (f : Nat → Nat)
    (synth nper : Nat) (st : DState) :
    (dRound dj f synth nper st).R.length ≤ st.R.length ∧
    ((dRoundSampled f synth nper st).R ≠ [] →
      0 < dRoundDist dj f synth nper st (dRoundPivot f synth nper st) →
      (dRound dj f synth nper st).R.length < st.R.length) := by
  have hs := dRoundSampled_pool f synth nper st
  unfold dRound
  by_cases hc : (dRoundSampled f synth nper st).R.isEmpty
  · simp only [hc, if_true]
    refine ⟨hs, fun hne _ => ?_⟩
    exact absurd (List.isEmpty_iff.mp hc) hne
  · simp only [hc, Bool.false_eq_true, if_false]
    constructor
    · exact Nat.le_trans (List.length_filter_le _ _) hs
    · intro hne _
      have hlen : 0 < (dRoundSampled f synth nper st).R.length := by
        cases hR : (dRoundSampled f synth nper st).R
        · exact absurd hR hne
        · simp [hR]
      have hpmem : dRoundPivot f synth nper st ∈ (dRoundSampled f synth nper st).R :=
        getD_mem _ _ (Nat.mod_lt _ hlen)
      exact Nat.lt_of_lt_of_le (length_filter_lt hpmem (by simp)) hs

theorem dLoop_trace_chain (dj : Graph → Nat → (Nat → ℚ) × (Nat → Nat)) (f : Nat → Nat)
    (synth nper : Nat) :
    ∀ n st, ∃ Δ, (dLoop dj f synth nper n st).trace = st.trace ++ Δ ∧
      List.Chain' (fun a b => b ≤ a) (st.R.length :: Δ.map (fun t => t.2.length)) := by
  intro n
  induction n with
  | zero => intro st; exact ⟨[], (List.append_nil _).symm, by simp⟩
  | succ m ih =>
    intro st
    rw [dLoop]
    by_cases hR : st.R.isEmpty
    · rw [if_pos hR]; exact ⟨[], (List.append_nil _).symm, by simp⟩
    · rw [if_neg hR]
      obtain ⟨Δ', hΔ', hchain'⟩ := ih (dRound dj f synth nper st)
      refine ⟨((dRoundSampled f synth nper st).g, (dRound dj f synth nper st).R) :: Δ', ?_, ?_⟩
      · rw [hΔ', dRound_trace]
        simp
      · rw [List.map_cons, List.chain'_cons]
        exact ⟨(dRound_pool dj f synth nper st).1, hchain'⟩

theorem sfgLoop_trace_chain (dj : Graph → Nat → (Nat → ℚ) × (Nat → Nat)) (f : Nat → Nat)
    (synth spr : Nat) :
    ∀ n st, ∃ Δ, (sfgLoop dj f synth spr n st).trace = st.trace ++ Δ ∧
      List.Chain' (fun a b => b ≤ a) (st.R.length :: Δ.map (fun t => t.2.length)) := by
  intro n
  induction n with
  | zero => intro st; exact ⟨[], (List.append_nil _).symm, by simp⟩
  | succ m ih =>
    intro st
    rw [sfgLoop]
    by_cases hR : st.R.isEmpty
    · rw [if_pos hR]; exact ⟨[], (List.append_nil _).symm, by simp⟩
    · rw [if_neg hR]
      obtain ⟨Δ', hΔ', hchain'⟩ := ih (sfgRound dj f synth spr st)
      refine ⟨(sfgRoundGraph f synth spr st, (sfgRound dj f synth spr st).R) :: Δ', ?_, ?_⟩
      · rw [hΔ']
        show (sfgRound dj f synth spr st).trace ++ Δ' = _
        unfold sfgRound
        simp
      · rw [List.map_cons, List.chain'_cons]
        refine ⟨(sfgRound_pool dj f synth spr st ?_).1, hchain'⟩
        intro hnil
        rw [hnil] at hR
        exact hR rfl

/-- C8: the candidate pool never grows.  Per-round: a `sample_from_graph`
round on a non-empty pool never enlarges it and strictly shrinks it when the
pivot's distance is positive (in the ℚ model every distance is finite), and
likewise for a `thorup_d` round whose post-sampling pool is non-empty.
Per-run: along both samplers' full runs the pool sizes recorded after each
round form a non-increasing chain starting from the initial pool size
`|V| = g.nv`. -/
theorem candidate_pool_monotone :
    (∀ (dj : Graph → Nat → (Nat → ℚ) × (Nat → Nat)) (f : Nat → Nat)
        (synth spr : Nat) (st : SState), st.R ≠ [] →
      (sfgRound dj f synth spr st).R.length ≤ st.R.length ∧
      (0 < (dj (sfgRoundGraph f synth spr st) synth).1 (sfgPivot f spr st) →
        (sfgRound dj f synth spr st).R.length < st.R.length)) ∧
    (∀ (dj : Graph → Nat → (Nat → ℚ) × (Nat → Nat)) (f : Nat → Nat)
        (synth nper : Nat) (st : DState),
      (dRound dj f synth nper st).R.length ≤ st.R.length ∧
      ((dRoundSampled f synth nper st).R ≠ [] →
        0 < dRoundDist dj f synth nper st (dRoundPivot f synth nper st) →
        (dRound dj f synth nper st).R.length < st.R.length)) ∧
    (∀ (dj : Graph → Nat → (Nat → ℚ) × (Nat → Nat)) (f : Nat → Nat)
        (g : Graph) (spr iters : Nat) (cont : List Nat),
      List.Chain' (fun a b => b ≤ a)
        (g.nv :: (sample_from_graph dj f g spr iters cont).trace.map (fun t => t.2.length))) ∧
    (∀ (dj : Graph → Nat → (Nat → ℚ) × (Nat → Nat)) (f : Nat → Nat)
        (g : Graph) (pos nper mnr : Nat),
      List.Chain' (fun a b => b ≤ a)
        (g.nv :: (thorup_d dj f g pos nper mnr).trace.map (fun t => t.2.length))) := by
  refine ⟨sfgRound_pool, dRound_pool, ?_, ?_⟩
  · intro dj f g spr iters cont
    obtain ⟨Δ, hΔ, hchain⟩ := sfgLoop_trace_chain dj f g.nv spr iters
      ⟨List.range g.nv, cont, ⟨g.nv + 1, g.edges⟩, 0, []⟩
    show List.Chain' _ (g.nv :: (sfgLoop dj f g.nv spr iters _).trace.map _)
    rw [hΔ]
    simpa using hchain
  · intro dj f g pos nper mnr
    obtain ⟨Δ, hΔ, hchain⟩ := dLoop_trace_chain dj f g.nv nper mnr
      ⟨List.range g.nv, [], ⟨g.nv + 1, g.edges⟩, fun _ => 0, pos, []⟩
    show List.Chain' _ (g.nv :: (dLoop dj f g.nv nper mnr _).trace.map _)
    rw [hΔ]
    simpa using hchain

/-- An SSSP oracle answering distance `1` everywhere (used to exhibit a
positive-distance pivot). -/
def djPosOne : Graph → Nat → (Nat → ℚ) × (Nat → Nat) := fun _ _ => (fun _ => 1, fun _ => 0)

/-! ## Claim C1 (BestOfTrials structure) -/

theorem tsmLoop_eq_trialList (dj : Graph → Nat → (Nat → ℚ) × (Nat → Nat)) (f : Nat → Nat)
    (spr mnr : Nat) :
    ∀ (n : Nat) (best : List Nat × ℚ) (pos : Nat) (g : Graph),
      tsmLoop dj f spr mnr n best pos g
        = (bestOf best (trialList dj f spr mnr n pos g).1, (trialList dj f spr mnr n pos g).2) := by
  intro n
  induction n with
  | zero => intro best pos g; rfl
  | succ m ih =>
    intro best pos g
    rw [tsmLoop, trialList, ih]
    rfl

theorem trialList_length (dj : Graph → Nat → (Nat → ℚ) × (Nat → Nat)) (f : Nat → Nat)
    (spr mnr : Nat) : ∀ (n pos : Nat) (g : Graph), (trialList dj f spr mnr n pos g).1.length = n := by
  intro n
  induction n with
  | zero => intro pos g; rfl
  | succ m ih =>
    intro pos g
    rw [trialList]
    simpa using ih _ _

theorem bestOf_le (b : List Nat × ℚ) (l : List (List Nat × ℚ)) :
    (bestOf b l).2 ≤ b.2 ∧ ∀ q ∈ l, (bestOf b l).2 ≤ q.2 := by
  induction l generalizing b with
  | nil => exact ⟨le_refl _, by intro q hq; cases hq⟩
  | cons t ts ih =>
    rw [bestOf]
    obtain ⟨h1, h2⟩ := ih (if t.2 < b.2 then t else b)
    constructor
    · refine le_trans h1 ?_
      by_cases hc : t.2 < b.2
      · rw [if_pos hc]; exact le_of_lt hc
      · rw [if_neg hc]
    · intro q hq
      rcases List.mem_cons.mp hq with rfl | hmem
      · refine le_trans h1 ?_
        by_cases hc : q.2 < b.2
        · rw [if_pos hc]
        · rw [if_neg hc]; exact le_of_not_lt hc
      · exact h2 q hmem

theorem bestOf_mem (b : List Nat × ℚ) (l : List (List Nat × ℚ)) :
    bestOf b l = b ∨ bestOf b l ∈ l := by
  induction l generalizing b with
  | nil => exact Or.inl rfl
  | cons t ts ih =>
    rw [bestOf]
    rcases ih (if t.2 < b.2 then t else b) with h | h
    · rw [h]
      by_cases hc : t.2 < b.2
      · rw [if_pos hc]
        exact Or.inr (List.mem_cons_self _ _)
      · rw [if_neg hc]
        exact Or.inl rfl
    · exact Or.inr (List.mem_cons_of_mem _ h)

theorem bestOf_mem_cons (b : List Nat × ℚ) (l : List (List Nat × ℚ)) :
    bestOf b l ∈ b :: l := by
  rcases bestOf_mem b l with h | h
  · rw [h]
    exact List.mem_cons_self _ _
  · exact List.mem_cons_of_mem _ h

/-- C1 (amended): `thorup_sample_mincost` runs `thorup_d` exactly
`numTrials` times on the one shared stream (trial `i+1` resumes at the
position — and graph — where trial `i` stopped, with no reseeding; this is
what `trialList` expresses), retains the earliest pair with the lowest
CostValue, runs `get_costs` exactly once on that winning SampleSet — and
returns the *pair* `(SampleSet, AssignmentVector)`: the CostVector computed
by `get_costs` is discarded, not returned. -/
theorem thorup_sample_mincost_best_of_trials (dj : Graph → Nat → (Nat → ℚ) × (Nat → Nat))
    (f : Nat → Nat) (g : Graph) (spr mnr n : Nat) (hn : 1 ≤ n) :
    ∃ t0 rest, (trialList dj f spr mnr n 0 g).1 = t0 :: rest ∧
      (trialList dj f spr mnr n 0 g).1.length = n ∧
      bestOf t0 rest ∈ (trialList dj f spr mnr n 0 g).1 ∧
      (∀ q ∈ (trialList dj f spr mnr n 0 g).1, (bestOf t0 rest).2 ≤ q.2) ∧
      thorup_sample_mincost dj f g spr mnr n
        = (match (get_costs dj (trialList dj f spr mnr n 0 g).2.2 (bestOf t0 rest).1).1 with
           | none => none
           | some (_, asgn) => some ((bestOf t0 rest).1, asgn)) := by
  obtain ⟨m, rfl⟩ : ∃ m, n = m + 1 := ⟨n - 1, by omega⟩
  have hcons : (trialList dj f spr mnr (m + 1) 0 g).1
      = ((thorup_d dj f g 0 spr mnr).F, (thorup_d dj f g 0 spr mnr).cost)
        :: (trialList dj f spr mnr m (thorup_d dj f g 0 spr mnr).pos
            (thorup_d dj f g 0 spr mnr).graph).1 := by
    rw [trialList]
  have hsnd : (trialList dj f spr mnr (m + 1) 0 g).2
      = (trialList dj f spr mnr m (thorup_d dj f g 0 spr mnr).pos
          (thorup_d dj f g 0 spr mnr).graph).2 := by
    rw [trialList]
  refine ⟨((thorup_d dj f g 0 spr mnr).F, (thorup_d dj f g 0 spr mnr).cost),
    (trialList dj f spr mnr m (thorup_d dj f g 0 spr mnr).pos (thorup_d dj f g 0 spr mnr).graph).1,
    hcons, trialList_length dj f spr mnr _ _ _, ?_, ?_, ?_⟩
  · rw [hcons]
    exact bestOf_mem_cons _ _
  · intro q hq
    rw [hcons] at hq
    obtain ⟨h1, h2⟩ := bestOf_le ((thorup_d dj f g 0 spr mnr).F, (thorup_d dj f g 0 spr mnr).cost)
      (trialList dj f spr mnr m (thorup_d dj f g 0 spr mnr).pos
        (thorup_d dj f g 0 spr mnr).graph).1
    rcases List.mem_cons.mp hq with rfl | hmem
    · exact h1
    · exact h2 q hmem
  · simp only [thorup_sample_mincost, hsnd]
    rw [show m + 1 - 1 = m from rfl, tsmLoop_eq_trialList]

/-- C1, witness for the amended claim (a two-trial run). -/
theorem thorup_sample_mincost_best_of_trials_witness :
    1 ≤ 2 ∧
    (∃ t0 rest, (trialList djOne fZero 1 1 2 0 gOne).1 = t0 :: rest ∧
      (trialList djOne fZero 1 1 2 0 gOne).1.length = 2 ∧
      bestOf t0 rest ∈ (trialList djOne fZero 1 1 2 0 gOne).1 ∧
      (∀ q ∈ (trialList djOne fZero 1 1 2 0 gOne).1, (bestOf t0 rest).2 ≤ q.2) ∧
      thorup_sample_mincost djOne fZero gOne 1 1 2
        = (match (get_costs djOne (trialList djOne fZero 1 1 2 0 gOne).2.2 (bestOf t0 rest).1).1 with
           | none => none
           | some (_, asgn) => some ((bestOf t0 rest).1, asgn))) :=
  ⟨by decide, thorup_sample_mincost_best_of_trials djOne fZero gOne 1 1 2 (by decide)⟩

/-- C1, counterexample to the claim as stated: on the one-vertex graph the
spec-shaped BestOfTrials result carries a non-empty CostVector, but
`thorup_sample_mincost` returns only the pair `(SampleSet,
AssignmentVector)` — no CostVector component exists in its output. -/
theorem thorup_sample_mincost_pair_cx :
    bestOfTrials_spec djOne fZero gOne 1 1 1 = some ([0], [0], [0]) ∧
    thorup_sample_mincost djOne fZero gOne 1 1 1 = some ([0], [0]) ∧
    ([(0 : ℚ)] : List ℚ) ≠ [] := by
  refine ⟨by decide, by decide, by decide⟩

/-! ## Claim C2: shortest-path-tree lemmas -/

theorem hasEdge_bounds {g : Graph} (hwf : g.WF) {u v : Nat} {w : ℚ}
    (h : hasEdge g u v w) : u < g.nv ∧ v < g.nv := by
  rcases h with h | h
  · exact ⟨(hwf _ h).1, (hwf _ h).2⟩
  · exact ⟨(hwf _ h).2, (hwf _ h).1⟩

theorem hasEdge_nonneg {g : Graph} (hnn : g.NonNeg) {u v : Nat} {w : ℚ}
    (h : hasEdge g u v w) : 0 ≤ w := by
  rcases h with h | h <;> exact hnn _ h

theorem no_g_edge_at_synth {g : Graph} (hwf : g.WF) {x : Nat} {w : ℚ} :
    ¬ hasEdge g g.nv x w := by
  intro h
  rcases h with h | h
  · exact absurd (hwf _ h).1 (lt_irrefl _)
  · exact absurd (hwf _ h).2 (lt_irrefl _)

theorem IsPath.snoc {g : Graph} {s u v : Nat} {c w : ℚ}
    (hp : IsPath g s u c) (he : hasEdge g u v w) : IsPath g s v (c + w) := by
  induction hp with
  | nil x =>
    have h0 : (0 : ℚ) + w = w + 0 := by ring
    rw [h0]
    exact IsPath.cons he (IsPath.nil v)
  | @cons a b t w' c' e p ih =>
    have h0 : w' + c' + w = w' + (c' + w) := by ring
    rw [h0]
    exact IsPath.cons e (ih he)

theorem path_nonneg {g : Graph} (hnn : g.NonNeg) {u v : Nat} {c : ℚ}
    (hp : IsPath g u v c) : 0 ≤ c := by
  induction hp with
  | nil => exact le_refl 0
  | cons e _ ih =>
    have := hasEdge_nonneg hnn e
    linarith

theorem sptree_path {g : Graph} {s : Nat} {dist : Nat → ℚ} {pred : Nat → Nat}
    (hwf : g.WF) (ht : IsSPTree g s dist pred) :
    ∀ (k v : Nat), v < g.nv → reachesIn pred s k v = true → IsPath g s v (dist v) := by
  obtain ⟨hds, _, htree, _, _, _⟩ := ht
  intro k
  induction k with
  | zero =>
    intro v hv hr
    have hvs : v = s := by simpa [reachesIn] using hr
    subst hvs
    rw [hds]
    exact IsPath.nil v
  | succ m ih =>
    intro v hv hr
    by_cases hvs : v = s
    · subst hvs
      rw [hds]
      exact IsPath.nil v
    · have hr' : reachesIn pred s m (pred v) = true := by
        rw [reachesIn] at hr
        have hvb : (v == s) = false := by simp [hvs]
        rw [hvb] at hr
        simpa using hr
      have hedge := htree v hv hvs
      have hpv : pred v < g.nv := (hasEdge_bounds hwf hedge).1
      have hstep := (ih (pred v) hpv hr').snoc hedge
      have harith : dist (pred v) + (dist v - dist (pred v)) = dist v := by ring
      rwa [harith] at hstep

theorem sptree_le {g : Graph} {s : Nat} {dist : Nat → ℚ} {pred : Nat → Nat}
    (ht : IsSPTree g s dist pred) :
    ∀ {u v : Nat} {c : ℚ}, IsPath g u v c → dist v ≤ dist u + c := by
  obtain ⟨_, _, _, hrelax, _, _⟩ := ht
  intro u v c hp
  induction hp with
  | nil x => simp
  | @cons a b t w c' e p ih =>
    have hrel : dist b ≤ dist a + w := by
      rcases e with h | h
      · exact (hrelax _ h).1
      · exact (hrelax _ h).2
    calc dist t ≤ dist b + c' := ih
      _ ≤ (dist a + w) + c' := by linarith
      _ = dist a + (w + c') := by ring

theorem sptree_dist_nonneg {g : Graph} {s : Nat} {dist : Nat → ℚ} {pred : Nat → Nat}
    (hwf : g.WF) (hnn : g.NonNeg) (ht : IsSPTree g s dist pred)
    {v : Nat} (hv : v < g.nv) : 0 ≤ dist v := by
  have hr := ht.2.2.2.2.1 v hv
  exact path_nonneg hnn (sptree_path hwf ht g.nv v hv hr)

theorem costGraph_WF {g : Graph} {S : List Nat} (hwf : g.WF) (hS : ∀ c ∈ S, c < g.nv) :
    (costGraph g S).WF := by
  intro e he
  rcases List.mem_append.mp he with h1 | h1
  · obtain ⟨ha, hb⟩ := hwf e h1
    exact ⟨by simp [costGraph]; omega, by simp [costGraph]; omega⟩
  · obtain ⟨c, hc, rfl⟩ := List.mem_map.mp h1
    have := hS c hc
    exact ⟨by simp [costGraph], by simp [costGraph]; omega⟩

theorem costGraph_nonneg {g : Graph} {S : List Nat} (hnn : g.NonNeg) :
    (costGraph g S).NonNeg := by
  intro e he
  rcases List.mem_append.mp he with h1 | h1
  · exact hnn e h1
  · obtain ⟨c, _, rfl⟩ := List.mem_map.mp h1
    exact le_refl 0

theorem costGraph_edge_cases {g : Graph} {S : List Nat} {u v : Nat} {w : ℚ}
    (h : hasEdge (costGraph g S) u v w) :
    hasEdge g u v w ∨ (w = 0 ∧ ((u = g.nv ∧ v ∈ S) ∨ (v = g.nv ∧ u ∈ S))) := by
  rcases h with h | h <;> rcases List.mem_append.mp h with h1 | h1
  · exact Or.inl (Or.inl h1)
  · obtain ⟨c, hc, heq⟩ := List.mem_map.mp h1
    obtain ⟨e1, e2, e3⟩ : g.nv = u ∧ c = v ∧ (0 : ℚ) = w := by
      obtain ⟨x1, x2⟩ := Prod.mk.injEq _ _ _ _ ▸ heq
      obtain ⟨y1, y2⟩ := Prod.mk.injEq _ _ _ _ ▸ x2
      exact ⟨x1, y1, y2⟩
    exact Or.inr ⟨e3.symm, Or.inl ⟨e1.symm, e2 ▸ hc⟩⟩
  · exact Or.inl (Or.inr h1)
  · obtain ⟨c, hc, heq⟩ := List.mem_map.mp h1
    obtain ⟨e1, e2, e3⟩ : g.nv = v ∧ c = u ∧ (0 : ℚ) = w := by
      obtain ⟨x1, x2⟩ := Prod.mk.injEq _ _ _ _ ▸ heq
      obtain ⟨y1, y2⟩ := Prod.mk.injEq _ _ _ _ ▸ x2
      exact ⟨x1, y1, y2⟩
    exact Or.inr ⟨e3.symm, Or.inr ⟨e1.symm, e2 ▸ hc⟩⟩

theorem IsPath.lift {g : Graph} {S : List Nat} {u v : Nat} {c : ℚ}
    (hp : IsPath g u v c) : IsPath (costGraph g S) u v c := by
  induction hp with
  | nil x => exact IsPath.nil x
  | cons e _ ih =>
    refine IsPath.cons ?_ ih
    rcases e with h | h
    · exact Or.inl (List.mem_append.mpr (Or.inl h))
    · exact Or.inr (List.mem_append.mpr (Or.inl h))

theorem synth_edge_lift {g : Graph} {S : List Nat} {m : Nat} (hm : m ∈ S) :
    hasEdge (costGraph g S) g.nv m 0 := by
  refine Or.inl (List.mem_append.mpr (Or.inr ?_))
  exact List.mem_map.mpr ⟨m, hm, rfl⟩

/-- Every path of the augmented graph ending at a real vertex costs at least
as much as some original-graph path from a sample member (when it starts at
the synthetic vertex) or from its own start vertex (when it starts at a real
vertex) — a synthetic-vertex detour can only shorten down to a sample
member's path. -/
theorem costGraph_path_lower {g : Graph} {S : List Nat} (hwf : g.WF) (hnn : g.NonNeg)
    (hS : ∀ c ∈ S, c < g.nv) :
    ∀ {u t : Nat} {c : ℚ}, IsPath (costGraph g S) u t c → t < g.nv →
      ((u = g.nv → ∃ m ∈ S, ∃ c', IsPath g m t c' ∧ c' ≤ c) ∧
       (u < g.nv → (∃ c', IsPath g u t c' ∧ c' ≤ c) ∨
          (∃ m ∈ S, ∃ c', IsPath g m t c' ∧ c' ≤ c))) := by
  intro u t c hp
  induction hp with
  | nil x =>
    intro ht
    constructor
    · intro hx
      omega
    · intro _
      exact Or.inl ⟨0, IsPath.nil x, le_refl 0⟩
  | @cons a b t w c0 e p ih =>
    intro ht
    obtain ⟨ih1, ih2⟩ := ih ht
    constructor
    · intro ha
      subst ha
      rcases costGraph_edge_cases e with hg | ⟨hw, hcase⟩
      · exact absurd hg (no_g_edge_at_synth hwf)
      · subst hw
        rcases hcase with ⟨_, hbS⟩ | ⟨hb, _⟩
        · have hblt : b < g.nv := hS b hbS
          rcases ih2 hblt with ⟨c', hp', hle⟩ | ⟨m, hm, c', hp', hle⟩
          · exact ⟨b, hbS, c', hp', by linarith⟩
          · exact ⟨m, hm, c', hp', by linarith⟩
        · obtain ⟨m, hm, c', hp', hle⟩ := ih1 hb
          exact ⟨m, hm, c', hp', by linarith⟩
    · intro ha
      rcases costGraph_edge_cases e with hg | ⟨hw, hcase⟩
      · have hblt : b < g.nv := (hasEdge_bounds hwf hg).2
        have hw0 : 0 ≤ w := hasEdge_nonneg hnn hg
        rcases ih2 hblt with ⟨c', hp', hle⟩ | ⟨m, hm, c', hp', hle⟩
        · exact Or.inl ⟨w + c', IsPath.cons hg hp', by linarith⟩
        · exact Or.inr ⟨m, hm, c', hp', by linarith⟩
      · subst hw
        rcases hcase with ⟨hA, _⟩ | ⟨hb, _⟩
        · omega
        · obtain ⟨m, hm, c', hp', hle⟩ := ih1 hb
          exact Or.inr ⟨m, hm, c', hp', by linarith⟩

/-- Tree-edge analysis on the augmented graph: a real vertex whose
predecessor is the synthetic vertex is a zero-distance sample member, and
one whose predecessor is real hangs off an original-graph edge. -/
theorem costGraph_tree_edge {g : Graph} {S : List Nat} {dist : Nat → ℚ} {pred : Nat → Nat}
    (hwf : g.WF) (ht : IsSPTree (costGraph g S) g.nv dist pred) {x : Nat} (hx : x < g.nv) :
    (pred x = g.nv → x ∈ S ∧ dist x = 0) ∧
    (pred x ≠ g.nv → hasEdge g (pred x) x (dist x - dist (pred x)) ∧ pred x < g.nv) := by
  obtain ⟨hds, _, htree, _, _, _⟩ := ht
  have hxlt : x < (costGraph g S).nv := by
    show x < g.nv + 1
    omega
  have hxs : x ≠ g.nv := by omega
  have hedge := htree x hxlt hxs
  constructor
  · intro hpx
    rw [hpx] at hedge
    rcases costGraph_edge_cases hedge with hg | ⟨hw, hcase⟩
    · exact absurd hg (no_g_edge_at_synth hwf)
    · rcases hcase with ⟨_, hxS⟩ | ⟨hxnv, _⟩
      · refine ⟨hxS, ?_⟩
        rw [hds] at hw
        linarith
      · omega
  · intro hpx
    rcases costGraph_edge_cases hedge with hg | ⟨_, hcase⟩
    · exact ⟨hg, (hasEdge_bounds hwf hg).1⟩
    · rcases hcase with ⟨hp1, _⟩ | ⟨hx1, _⟩
      · exact absurd hp1 hpx
      · omega

/-- Walking up the predecessor chain of a valid shortest-path tree on the
augmented graph finds the zero-distance sample member rooting the chain,
together with an original-graph path accounting exactly for the distance. -/
theorem walkUp_chain {g : Graph} {S : List Nat} {dist : Nat → ℚ} {pred : Nat → Nat}
    (hwf : g.WF) (ht : IsSPTree (costGraph g S) g.nv dist pred) :
    ∀ (k x : Nat), x < g.nv → reachesIn pred g.nv k x = true →
      ∃ y, walkUp pred g.nv (k + 1) x = some y ∧ y ∈ S ∧ dist y = 0 ∧
        IsPath g y x (dist x) := by
  intro k
  induction k with
  | zero =>
    intro x hx hr
    exfalso
    have : x = g.nv := by simpa [reachesIn] using hr
    omega
  | succ m ih =>
    intro x hx hr
    have hxb : (x == g.nv) = false := by
      simp only [beq_eq_false_iff_ne]
      omega
    rw [reachesIn, hxb] at hr
    simp only [Bool.false_or] at hr
    by_cases hpx : pred x = g.nv
    · obtain ⟨hxS, hx0⟩ := (costGraph_tree_edge hwf ht hx).1 hpx
      refine ⟨x, ?_, hxS, hx0, ?_⟩
      · rw [walkUp, if_pos hpx]
      · rw [hx0]
        exact IsPath.nil x
    · obtain ⟨hedge, hplt⟩ := (costGraph_tree_edge hwf ht hx).2 hpx
      obtain ⟨y, hwalk, hyS, hy0, hyp⟩ := ih (pred x) hplt hr
      refine ⟨y, ?_, hyS, hy0, ?_⟩
      · rw [walkUp, if_neg hpx]
        exact hwalk
      · have hp2 := hyp.snoc hedge
        have harith : dist (pred x) + (dist x - dist (pred x)) = dist x := by ring
        rwa [harith] at hp2

theorem optMapAll_isSome {l : List Nat} {f : Nat → Option Nat}
    (h : ∀ i ∈ l, (f i).isSome = true) : ∃ out, optMapAll l f = some out := by
  induction l with
  | nil => exact ⟨[], rfl⟩
  | cons a as ih =>
    obtain ⟨b, hb⟩ := Option.isSome_iff_exists.mp (h a (List.mem_cons_self a as))
    obtain ⟨out, hout⟩ := ih (fun i hi => h i (List.mem_cons_of_mem _ hi))
    exact ⟨b :: out, by rw [optMapAll, hb, hout]⟩

/-- The facility resolution of `get_costs` succeeds on every real vertex of
a valid shortest-path tree, yields an index of a zero-distance sample
member reached by a real path of cost `dist v`, and maps sample members to
their own index. -/
theorem assignOf_resolves {g : Graph} {S : List Nat} {dist : Nat → ℚ} {pred : Nat → Nat}
    (hwf : g.WF) (hnn : g.NonNeg) (hS : ∀ c ∈ S, c < g.nv)
    (ht : IsSPTree (costGraph g S) g.nv dist pred) {v : Nat} (hv : v < g.nv) :
    ∃ j m, assignOf S pred g.nv (g.nv + 2) v = some j ∧ S[j]? = some m ∧ dist m = 0 ∧
      IsPath g m v (dist v) ∧ (v ∈ S → m = v) := by
  by_cases hpv : pred v = g.nv
  · obtain ⟨hvS, hv0⟩ := (costGraph_tree_edge hwf ht hv).1 hpv
    obtain ⟨j, hj⟩ := lastIdxOf_of_mem hvS
    have hsynthS : g.nv ∉ S := fun hmem => absurd (hS _ hmem) (lt_irrefl _)
    have hw : walkUp pred g.nv (g.nv + 2) g.nv = some g.nv := by
      rw [show g.nv + 2 = (g.nv + 1) + 1 from rfl, walkUp, if_pos ht.2.1]
    refine ⟨j, v, ?_, lastIdxOf_getElem? hj, hv0, ?_, fun _ => rfl⟩
    · simp only [assignOf, hpv, hw, lastIdxOf_eq_none hsynthS, hj]
    · rw [hv0]
      exact IsPath.nil v
  · obtain ⟨hedge, hplt⟩ := (costGraph_tree_edge hwf ht hv).2 hpv
    have hvlt' : v < (costGraph g S).nv := by
      show v < g.nv + 1
      omega
    have hreach := ht.2.2.2.2.1 v hvlt'
    have hvb : (v == g.nv) = false := by
      simp only [beq_eq_false_iff_ne]
      omega
    rw [show (costGraph g S).nv = g.nv + 1 from rfl, reachesIn, hvb] at hreach
    simp only [Bool.false_or] at hreach
    obtain ⟨y, hwalk, hyS, hy0, hyp⟩ := walkUp_chain hwf ht g.nv (pred v) hplt hreach
    obtain ⟨j, hj⟩ := lastIdxOf_of_mem hyS
    refine ⟨j, y, ?_, lastIdxOf_getElem? hj, hy0, ?_, ?_⟩
    · simp only [assignOf, walkUp_mono hwalk (by omega : g.nv + 1 ≤ g.nv + 2), hj]
    · have hp2 := hyp.snoc hedge
      have harith : dist (pred v) + (dist v - dist (pred v)) = dist v := by ring
      rwa [harith] at hp2
    · intro hvS
      exfalso
      have hmem : ((g.nv : Nat), v, (0 : ℚ)) ∈ (costGraph g S).edges :=
        List.mem_append.mpr (Or.inr (List.mem_map.mpr ⟨v, hvS, rfl⟩))
      have hsf := (ht.2.2.2.2.2 _ hmem).1 rfl hpv
      have hnn' := sptree_dist_nonneg (costGraph_WF hwf hS) (costGraph_nonneg hnn) ht hvlt'
      simp only at hsf
      linarith

/-- C2: with a correct shortest-path tree from the external Dijkstra
capability on the augmented graph (synthetic vertex wired by zero-weight
edges to a non-empty SampleSet of real vertices of a well-formed,
non-negatively weighted graph), `get_costs` succeeds and returns cost and
assignment vectors with one entry per real vertex; sample members are
assigned their own index; and for every vertex `v`, `costs[v]` is the true
shortest-path distance from `v` to the sample member `S[assignment[v]]`,
and is minimal among the distances to all sample members (no path from any
sample member is shorter). -/
theorem get_costs_correct (dj : Graph → Nat → (Nat → ℚ) × (Nat → Nat)) (g : Graph)
    (S : List Nat) (hwf : g.WF) (hnn : g.NonNeg) (hSne : S ≠ [])
    (hS : ∀ c ∈ S, c < g.nv)
    (ht : IsSPTree (costGraph g S) g.nv (dj (costGraph g S) g.nv).1
      (dj (costGraph g S) g.nv).2) :
    ∃ costs asgn, (get_costs dj g S).1 = some (costs, asgn) ∧
      costs.length = g.nv ∧ asgn.length = g.nv ∧
      ∀ v, v < g.nv →
        ∃ j m, asgn[v]? = some j ∧ S[j]? = some m ∧
          costs[v]? = some ((dj (costGraph g S) g.nv).1 v) ∧
          (v ∈ S → m = v) ∧
          IsShortestFrom g m v ((dj (costGraph g S) g.nv).1 v) ∧
          (∀ m' ∈ S, ∀ c, IsPath g m' v c → (dj (costGraph g S) g.nv).1 v ≤ c) := by
  obtain ⟨hds, hps, htree, hrelax, hreach, hsf⟩ := ht
  have ht' : IsSPTree (costGraph g S) g.nv (dj (costGraph g S) g.nv).1
      (dj (costGraph g S) g.nv).2 := ⟨hds, hps, htree, hrelax, hreach, hsf⟩
  have hall : ∀ i ∈ List.range g.nv,
      (assignOf S (dj (costGraph g S) g.nv).2 g.nv (g.nv + 2) i).isSome = true := by
    intro i hi
    obtain ⟨j, _, hj, _⟩ := assignOf_resolves hwf hnn hS ht' (List.mem_range.mp hi)
    rw [hj]
    rfl
  obtain ⟨out, hout⟩ := optMapAll_isSome hall
  have hAll : assignAll S (dj (costGraph g S) g.nv).2 g.nv g.nv = some out := hout
  refine ⟨(List.range g.nv).map (dj (costGraph g S) g.nv).1, out, ?_, by simp, ?_, ?_⟩
  · unfold get_costs
    simp only [hAll]
  · have := (optMapAll_some hout).1
    simpa using this
  · intro v hv
    obtain ⟨j, m, hja, hjm, hm0, hmp, hmv⟩ := assignOf_resolves hwf hnn hS ht' hv
    have hgets := (optMapAll_some hout).2 v v (by simp [hv])
    rw [hja] at hgets
    have hmin : ∀ m' ∈ S, ∀ c, IsPath g m' v c → (dj (costGraph g S) g.nv).1 v ≤ c := by
      intro m' hm' c hp
      have haug : IsPath (costGraph g S) g.nv v (0 + c) :=
        IsPath.cons (synth_edge_lift hm') hp.lift
      have hle := sptree_le ht' haug
      rw [hds] at hle
      linarith
    refine ⟨j, m, hgets, hjm, ?_, hmv, ⟨hmp, ?_⟩, hmin⟩
    · simp [hv]
    · intro c hp
      refine hmin m ?_ c hp
      exact List.getElem?_mem hjm

/-- Star graph: center `0` with three unit-weight leaves (fixture for C2). -/
def gStar : Graph := ⟨4, [(0, 1, 1), (0, 2, 1), (0, 3, 1)]⟩

/-- The distance map Dijkstra computes on `costGraph gStar [0]` from the
synthetic source `4`. -/
def distStar : Nat → ℚ := fun v => if v = 0 ∨ v = 4 then 0 else 1

/-- The matching predecessor map (leaves hang off the center, the center off
the synthetic source). -/
def predStar : Nat → Nat := fun v => if v = 0 ∨ v = 4 then 4 else 0

/-- An SSSP oracle answering with the star graph's true shortest-path tree. -/
def djStar : Graph → Nat → (Nat → ℚ) × (Nat → Nat) := fun _ _ => (distStar, predStar)

/-- C2, witness: on the star graph with SampleSet `{0}` every hypothesis of
the correctness theorem holds by computation. -/
theorem get_costs_correct_witness :
    gStar.WF ∧ gStar.NonNeg ∧ (([0] : List Nat) ≠ []) ∧
    (∀ c ∈ ([0] : List Nat), c < gStar.nv) ∧
    IsSPTree (costGraph gStar [0]) gStar.nv (djStar (costGraph gStar [0]) gStar.nv).1
      (djStar (costGraph gStar [0]) gStar.nv).2 ∧
    (∃ costs asgn, (get_costs djStar gStar [0]).1 = some (costs, asgn) ∧
      costs.length = gStar.nv ∧ asgn.length = gStar.nv ∧
      ∀ v, v < gStar.nv →
        ∃ j m, asgn[v]? = some j ∧ ([0] : List Nat)[j]? = some m ∧
          costs[v]? = some ((djStar (costGraph gStar [0]) gStar.nv).1 v) ∧
          (v ∈ ([0] : List Nat) → m = v) ∧
          IsShortestFrom gStar m v ((djStar (costGraph gStar [0]) gStar.nv).1 v) ∧
          (∀ m' ∈ ([0] : List Nat), ∀ c, IsPath gStar m' v c →
            (djStar (costGraph gStar [0]) gStar.nv).1 v ≤ c))   := by
  have htree : IsSPTree (costGraph gStar [0]) gStar.nv
      (djStar (costGraph gStar [0]) gStar.nv).1 (djStar (costGraph gStar [0]) gStar.nv).2 := by
    refine ⟨rfl, rfl, ?_, ?_, by decide, ?_⟩
    · intro v hv hvne
      have hv5 : v < 5 := hv
      show hasEdge (costGraph gStar [0]) (predStar v) v (distStar v - distStar (predStar v))
      interval_cases v
      · norm_num [predStar, distStar, hasEdge, costGraph, gStar]
      · norm_num [predStar, distStar, hasEdge, costGraph, gStar]
      · norm_num [predStar, distStar, hasEdge, costGraph, gStar]
      · norm_num [predStar, distStar, hasEdge, costGraph, gStar]
      · exact absurd rfl hvne
    · intro e he
      have he' : e ∈ [((0:Nat), (1:Nat), (1:ℚ)), (0, 2, 1), (0, 3, 1), (4, 0, 0)] := he
      fin_cases he' <;> constructor <;> norm_num [djStar, distStar]
    · intro e he
      have he' : e ∈ [((0:Nat), (1:Nat), (1:ℚ)), (0, 2, 1), (0, 3, 1), (4, 0, 0)] := he
      fin_cases he' <;> constructor <;> norm_num [djStar, distStar, predStar, gStar]
  exact ⟨by decide, by decide, by decide, by decide, htree,
    get_costs_correct djStar gStar [0] (by decide) (by decide) (by decide) (by decide) htree⟩

/-! ## Claim C3 (thorup_d: no duplicates, cumulative edges, final cost) -/

/-- Pool/sample bookkeeping invariant of `thorup_d`: the pool has no
duplicates, the sample has no duplicates, and no vertex sits in both. -/
def PoolInv (st : DState) : Prop :=
  st.R.Nodup ∧ st.F.Nodup ∧ ∀ x ∈ st.F, x ∉ st.R

theorem dPick_poolInv (f : Nat → Nat) (synth : Nat) (st : DState)
    (hlen : 0 < st.R.length) (h : PoolInv st) : PoolInv (dPick f synth st) := by
  obtain ⟨hR, hF, hdis⟩ := h
  have hi : f st.pos % st.R.length < st.R.length := Nat.mod_lt _ hlen
  have hr : st.R.getD (f st.pos % st.R.length) 0 ∈ st.R := getD_mem _ _ hi
  refine ⟨swapPop_nodup _ _ hi hR, ?_, ?_⟩
  · show (st.F ++ [st.R.getD (f st.pos % st.R.length) 0]).Nodup
    rw [List.nodup_append]
    refine ⟨hF, List.nodup_singleton _, ?_⟩
    intro a ha hb
    simp only [List.mem_singleton] at hb
    subst hb
    exact hdis _ ha hr
  · intro x hx hxR
    rcases List.mem_append.mp hx with hxF | hxr
    · exact hdis x hxF (swapPop_subset _ _ hi x hxR)
    · simp only [List.mem_singleton] at hxr
      subst hxr
      exact swapPop_pick_not_mem _ _ hi hR hxR

theorem dPick_R_length (f : Nat → Nat) (synth : Nat) (st : DState) :
    (dPick f synth st).R.length = st.R.length - 1 := swapPop_length_le _ _

theorem dSample_poolInv (f : Nat → Nat) (synth : Nat) :
    ∀ j st, j ≤ st.R.length → PoolInv st → PoolInv (dSample f synth j st) := by
  intro j
  induction j with
  | zero => intro st _ h; exact h
  | succ m ih =>
    intro st hle h
    refine ih (dPick f synth st) ?_ (dPick_poolInv f synth st (by omega) h)
    rw [dPick_R_length]
    omega

theorem dRoundSampled_poolInv (f : Nat → Nat) (synth nper : Nat) (st : DState)
    (h : PoolInv st) : PoolInv (dRoundSampled f synth nper st) := by
  obtain ⟨hR, hF, hdis⟩ := h
  unfold dRoundSampled
  by_cases hc : nper < st.R.length
  · rw [if_pos hc]
    exact dSample_poolInv f synth nper st (by omega) ⟨hR, hF, hdis⟩
  · rw [if_neg hc]
    refine ⟨List.nodup_nil, ?_, by intro x _ hx; cases hx⟩
    show (st.F ++ st.R).Nodup
    rw [List.nodup_append]
    exact ⟨hF, hR, fun a ha hb => hdis a ha hb⟩

theorem dRound_poolInv (dj : Graph → Nat → (Nat → ℚ) × (Nat → Nat)) (f : Nat → Nat)
    (synth nper : Nat) (st : DState) (h : PoolInv st) :
    PoolInv (dRound dj f synth nper st) := by
  have h1 := dRoundSampled_poolInv f synth nper st h
  obtain ⟨hR, hF, hdis⟩ := h1
  unfold dRound
  by_cases hc : (dRoundSampled f synth nper st).R.isEmpty
  · simp only [hc, if_true]
    exact ⟨hR, hF, hdis⟩
  · simp only [hc, Bool.false_eq_true, if_false]
    refine ⟨hR.filter _, hF, ?_⟩
    intro x hx hxR
    exact hdis x hx (List.mem_filter.mp hxR).1

/-- Edge-list containment between graphs (nothing was cleared). -/
def EdgeSub (a b : Graph) : Prop := ∀ e ∈ a.edges, e ∈ b.edges

instance : IsTrans Graph EdgeSub := ⟨fun _ _ _ hab hbc e he => hbc e (hab e he)⟩

theorem dPick_edge_sub (f : Nat → Nat) (synth : Nat) (st : DState) :
    EdgeSub st.g (dPick f synth st).g := by
  intro e he
  exact List.mem_append.mpr (Or.inl he)

theorem dSample_edge_sub (f : Nat → Nat) (synth : Nat) :
    ∀ j st, EdgeSub st.g (dSample f synth j st).g := by
  intro j
  induction j with
  | zero => intro st e he; exact he
  | succ m ih =>
    intro st e he
    exact ih (dPick f synth st) e (dPick_edge_sub f synth st e he)

theorem dRoundSampled_edge_sub (f : Nat → Nat) (synth nper : Nat) (st : DState) :
    EdgeSub st.g (dRoundSampled f synth nper st).g := by
  unfold dRoundSampled
  by_cases hc : nper < st.R.length
  · rw [if_pos hc]; exact dSample_edge_sub f synth nper st
  · rw [if_neg hc]
    intro e he
    exact List.mem_append.mpr (Or.inl he)

theorem dRound_g (dj : Graph → Nat → (Nat → ℚ) × (Nat → Nat)) (f : Nat → Nat)
    (synth nper : Nat) (st : DState) :
    (dRound dj f synth nper st).g = (dRoundSampled f synth nper st).g := by
  unfold dRound
  by_cases hc : (dRoundSampled f synth nper st).R.isEmpty <;> simp [hc]

theorem dRound_dist (dj : Graph → Nat → (Nat → ℚ) × (Nat → Nat)) (f : Nat → Nat)
    (synth nper : Nat) (st : DState) :
    (dRound dj f synth nper st).dist = (dj (dRoundSampled f synth nper st).g synth).1 := by
  unfold dRound
  by_cases hc : (dRoundSampled f synth nper st).R.isEmpty <;> simp [hc, dRoundDist]

theorem dLoop_graph_chain (dj : Graph → Nat → (Nat → ℚ) × (Nat → Nat)) (f : Nat → Nat)
    (synth nper : Nat) :
    ∀ n st, ∃ Δ, (dLoop dj f synth nper n st).trace = st.trace ++ Δ ∧
      List.Chain' EdgeSub (st.g :: Δ.map (fun t => t.1)) := by
  intro n
  induction n with
  | zero => intro st; exact ⟨[], (List.append_nil _).symm, by simp⟩
  | succ m ih =>
    intro st
    rw [dLoop]
    by_cases hR : st.R.isEmpty
    · rw [if_pos hR]; exact ⟨[], (List.append_nil _).symm, by simp⟩
    · rw [if_neg hR]
      obtain ⟨Δ', hΔ', hchain'⟩ := ih (dRound dj f synth nper st)
      refine ⟨((dRoundSampled f synth nper st).g, (dRound dj f synth nper st).R) :: Δ', ?_, ?_⟩
      · rw [hΔ', dRound_trace]
        simp
      · rw [List.map_cons, List.chain'_cons]
        refine ⟨dRoundSampled_edge_sub f synth nper st, ?_⟩
        rw [dRound_g] at hchain'
        exact hchain'

/-- The last-written distance vector is the one Dijkstra computed on the
graph recorded by the last executed round. -/
def DistInv (dj : Graph → Nat → (Nat → ℚ) × (Nat → Nat)) (synth : Nat) (st : DState) : Prop :=
  st.trace ≠ [] → ∃ e, st.trace.getLast? = some e ∧ st.dist = (dj e.1 synth).1

theorem dRound_distInv (dj : Graph → Nat → (Nat → ℚ) × (Nat → Nat)) (f : Nat → Nat)
    (synth nper : Nat) (st : DState) : DistInv dj synth (dRound dj f synth nper st) := by
  intro _
  refine ⟨((dRoundSampled f synth nper st).g, (dRound dj f synth nper st).R), ?_, ?_⟩
  · rw [dRound_trace]
    exact List.getLast?_concat _
  · rw [dRound_dist]

theorem dLoop_trace_ne (dj : Graph → Nat → (Nat → ℚ) × (Nat → Nat)) (f : Nat → Nat)
    (synth nper : Nat) (n : Nat) (st : DState) (hR : st.R ≠ []) (hn : 1 ≤ n) :
    (dLoop dj f synth nper n st).trace ≠ [] := by
  obtain ⟨m, rfl⟩ : ∃ m, n = m + 1 := ⟨n - 1, by omega⟩
  have hRb : st.R.isEmpty = false := by
    cases hc : st.R
    · exact absurd hc hR
    · rfl
  rw [dLoop, hRb]
  simp only [Bool.false_eq_true, if_false]
  obtain ⟨Δ, hΔ, _⟩ := dLoop_trace_chain dj f synth nper m (dRound dj f synth nper st)
  rw [hΔ, dRound_trace]
  simp

/-- C3: in every `thorup_d` run (on a non-empty graph, with at least one
round admitted) the returned SampleSet has no duplicate vertex handles
(sampling moves vertices out of the pool, without replacement); the graphs
handed to Dijkstra accumulate edges monotonically round over round (edges
wired in earlier rounds are never cleared); and the returned CostValue is
the sum, over all non-synthetic vertices `0 .. g.nv - 1`, of the distance
vector computed by the *last* executed Dijkstra call. -/
theorem thorup_d_results (dj : Graph → Nat → (Nat → ℚ) × (Nat → Nat)) (f : Nat → Nat)
    (g : Graph) (pos nper mnr : Nat) (hnv : 1 ≤ g.nv) (hmnr : 1 ≤ mnr) :
    (thorup_d dj f g pos nper mnr).F.Nodup ∧
    List.Pairwise (fun a b => ∀ e ∈ a.1.edges, e ∈ b.1.edges)
      (thorup_d dj f g pos nper mnr).trace ∧
    ∃ last, (thorup_d dj f g pos nper mnr).trace.getLast? = some last ∧
      (thorup_d dj f g pos nper mnr).cost
        = ((List.range g.nv).map ((dj last.1 g.nv).1)).sum ∧
      (thorup_d dj f g pos nper mnr).dist = (dj last.1 g.nv).1 := by
  have hR0 : (List.range g.nv) ≠ [] := by
    intro hc
    have := congrArg List.length hc
    simp at this
    omega
  refine ⟨?_, ?_, ?_⟩
  · have hfin := dLoop_inv dj f g.nv nper PoolInv
      (fun st hst => dRound_poolInv dj f g.nv nper st hst) mnr
      ⟨List.range g.nv, [], ⟨g.nv + 1, g.edges⟩, fun _ => 0, pos, []⟩
      ⟨List.nodup_range _, List.nodup_nil, by intro x hx; cases hx⟩
    exact hfin.2.1
  · obtain ⟨Δ, hΔ, hchain⟩ := dLoop_graph_chain dj f g.nv nper mnr
      ⟨List.range g.nv, [], ⟨g.nv + 1, g.edges⟩, fun _ => 0, pos, []⟩
    show List.Pairwise _ (dLoop dj f g.nv nper mnr _).trace
    rw [hΔ]
    simp only [List.nil_append]
    have hp : List.Pairwise EdgeSub (Δ.map (fun t => t.1)) :=
      List.chain'_iff_pairwise.mp (hchain.tail)
    rw [List.pairwise_map] at hp
    exact hp
  · have hne := dLoop_trace_ne dj f g.nv nper mnr
      ⟨List.range g.nv, [], ⟨g.nv + 1, g.edges⟩, fun _ => 0, pos, []⟩ hR0 hmnr
    have hinv := dLoop_inv dj f g.nv nper (DistInv dj g.nv)
      (fun st _ => dRound_distInv dj f g.nv nper st) mnr
      ⟨List.range g.nv, [], ⟨g.nv + 1, g.edges⟩, fun _ => 0, pos, []⟩
      (fun hc => absurd rfl hc)
    obtain ⟨e, hlast, hdist⟩ := hinv hne
    exact ⟨e, hlast, by rw [show (thorup_d dj f g pos nper mnr).cost
      = ((List.range g.nv).map (dLoop dj f g.nv nper mnr
          ⟨List.range g.nv, [], ⟨g.nv + 1, g.edges⟩, fun _ => 0, pos, []⟩).dist).sum from rfl,
      hdist], hdist⟩

/-- C3, witness at a concrete connected graph. -/
theorem thorup_d_results_witness :
    1 ≤ gTwo.nv ∧ 1 ≤ 1 ∧
    ((thorup_d djOne fZero gTwo 0 1 1).F.Nodup ∧
      List.Pairwise (fun a b => ∀ e ∈ a.1.edges, e ∈ b.1.edges)
        (thorup_d djOne fZero gTwo 0 1 1).trace ∧
      ∃ last, (thorup_d djOne fZero gTwo 0 1 1).trace.getLast? = some last ∧
        (thorup_d djOne fZero gTwo 0 1 1).cost
          = ((List.range gTwo.nv).map ((djOne last.1 gTwo.nv).1)).sum ∧
        (thorup_d djOne fZero gTwo 0 1 1).dist = (djOne last.1 gTwo.nv).1) :=
  ⟨by decide, by decide, thorup_d_results djOne fZero gTwo 0 1 1 (by decide) (by decide)⟩

/-- C8, witness: concrete rounds with a positive-distance pivot strictly
shrink the pool, and concrete runs yield non-increasing chains. -/
theorem candidate_pool_monotone_witness :
    ((sfgRound djPosOne fZero 2 1 ⟨[0, 1], [], ⟨3, [(0, 1, 1)]⟩, 0, []⟩).R.length < 2 ∧
      (dRound djPosOne fZero 2 1 ⟨[0, 1], [], ⟨3, [(0, 1, 1)]⟩, fun _ => 0, 0, []⟩).R.length < 2) ∧
    List.Chain' (fun a b => b ≤ a)
      (gTwo.nv :: (sample_from_graph djPosOne fZero gTwo 1 2 []).trace.map (fun t => t.2.length)) ∧
    List.Chain' (fun a b => b ≤ a)
      (gTwo.nv :: (thorup_d djPosOne fZero gTwo 0 1 2).trace.map (fun t => t.2.length)) :=
  ⟨⟨(candidate_pool_monotone.1 djPosOne fZero 2 1
        ⟨[0, 1], [], ⟨3, [(0, 1, 1)]⟩, 0, []⟩ (by decide)).2 (by decide),
    (candidate_pool_monotone.2.1 djPosOne fZero 2 1
        ⟨[0, 1], [], ⟨3, [(0, 1, 1)]⟩, fun _ => 0, 0, []⟩).2 (by decide) (by decide)⟩,
   candidate_pool_monotone.2.2.1 djPosOne fZero gTwo 1 2 [],
   candidate_pool_monotone.2.2.2 djPosOne fZero gTwo 0 1 2⟩

end FGC
